import Mathlib

/-!
Verification of the gcalcli calendar grid renderer (src/gcalcli/gcal.py and
src/gcalcli/utils.py) against its natural-language specification.

Modelling conventions:
* Strings are `List Char`.  Python's `str` whitespace handling (`str.split()`,
  `str.strip()`) is modelled on the ASCII whitespace characters; the exotic
  Unicode space code points accepted by Python are outside the character
  universe exercised here.
* The East-Asian-Width table (`unicodedata.east_asian_width` composed with
  `GoogleCalendarInterface.UNIWIDTH`) is external library data, so the
  per-character display width is a parameter `uw : Char → Nat`; the table only
  produces the values 1 and 2, which theorems assume as `∀ c, 1 ≤ uw c`.
* Instants (`datetime` values localized to one time zone) are modelled as
  integer minute counts since the local epoch midnight (1970-01-01 was a
  Thursday); `timedelta(days=1)` is 1440, a week is 10080.
-/

namespace Gcalcli

/-- Python ASCII whitespace, as used by `str.split()` / `str.strip()`. -/
def isSpace (c : Char) : Bool :=
  c == ' ' || c == '\t' || c == '\n' || c == '\x0b' || c == '\x0c' || c == '\r'

/-- `GoogleCalendarInterface._printed_len` (gcal.py 396-401): sum of the
per-character display widths given by the width table `uw`. -/
def printedLen (uw : Char → Nat) (s : List Char) : Nat :=
  (s.map uw).sum

/-- Python `str.strip()`: drop leading and trailing whitespace. -/
def stripStr (s : List Char) : List Char :=
  (((s.dropWhile isSpace).reverse).dropWhile isSpace).reverse

/-- Scanner for Python `str.split()` (no separator): `acc` is the current
word being accumulated; a whitespace character flushes it. -/
def splitWordsAux : List Char → List Char → List (List Char)
  | acc, [] => if acc = [] then [] else [acc]
  | acc, c :: cs =>
    if isSpace c then
      if acc = [] then splitWordsAux [] cs else acc :: splitWordsAux [] cs
    else splitWordsAux (acc ++ [c]) cs

/-- Python `str.split()` (no separator): split on runs of whitespace,
discarding empty pieces. -/
def splitWords (s : List Char) : List (List Char) :=
  splitWordsAux [] s

/-- Python `str.find("\n")`: index of the first newline, if any. -/
def findNLIdx : List Char → Option Nat
  | [] => none
  | c :: cs => if c = '\n' then some 0 else (findNLIdx cs).map (· + 1)

/-- Loop body of `GoogleCalendarInterface._word_cut` (gcal.py 403-409):
`stop` is the accumulated display width, `k` the number of characters already
consumed.  Returns `none` when the loop falls off the end of the word (the
Python function returns `None` there). -/
def wordCutGo (uw : Char → Nat) (W : Nat) (stop k : Nat) : List Char → Option (Nat × Nat)
  | [] => none
  | c :: cs =>
    let stop' := stop + uw c
    if W ≤ stop' then some (stop', k + 1)
    else wordCutGo uw W stop' (k + 1) cs

/-- `GoogleCalendarInterface._word_cut` (gcal.py 403-409). -/
def wordCut (uw : Char → Nat) (W : Nat) (word : List Char) : Option (Nat × Nat) :=
  wordCutGo uw W 0 0 word

/-- Length of `" ".join ws`: total character count plus one separator between
adjacent words. -/
def joinLen : List (List Char) → Nat
  | [] => 0
  | [w] => w.length
  | w :: v :: ws => w.length + 1 + joinLen (v :: ws)

/-- `" ".join ws` itself (used to state the word-walk spec). -/
def joinStr : List (List Char) → List Char
  | [] => []
  | [w] => w
  | w :: v :: ws => w ++ ' ' :: joinStr (v :: ws)

/-- Loop of `GoogleCalendarInterface._next_cut` (gcal.py 411-427) over the
word list.  State: `pl` is Python's `print_len` (display width of the words
joined so far), `ci` is `len(" ".join(words[:i]))` for the current index `i`.
The last word is treated separately because after the loop Python returns
`(print_len, len(" ".join(words[:i])))` with `i` still bound to the *last*
index, i.e. the final word is excluded from the returned character count.
An initially empty word list makes Python raise `NameError` (`i` unbound):
modelled as `none`. -/
def nextCutGo (uw : Char → Nat) (W : Nat) (pl ci i : Nat) : List (List Char) → Option (Nat × Nat)
  | [] => none
  | [word] =>
    let wl := printedLen uw word
    if W ≤ wl + pl then
      if ci = 0 then wordCut uw W word else some (pl, ci)
    else
      some (pl + wl + (if i = 0 then 0 else 1), ci)
  | word :: next :: rest =>
    let wl := printedLen uw word
    if W ≤ wl + pl then
      if ci = 0 then wordCut uw W word else some (pl, ci)
    else
      nextCutGo uw W (pl + wl + (if i = 0 then 0 else 1))
        (ci + word.length + (if i = 0 then 0 else 1)) (i + 1) (next :: rest)

/-- `GoogleCalendarInterface._next_cut` (gcal.py 411-427). -/
def nextCut (uw : Char → Nat) (W : Nat) (s : List Char) : Option (Nat × Nat) :=
  nextCutGo uw W 0 0 0 (splitWords s)

/-- `GoogleCalendarInterface._get_cut_index` (gcal.py 429-441).  `W` is
`self.options["cal_width"]`.  Returns `(fitted display width, char count)`;
`none` models the `NameError` raised by `_next_cut` on an all-whitespace
over-budget string. -/
def getCutIndex (uw : Char → Nat) (W : Nat) (s : List Char) : Option (Nat × Nat) :=
  let printLen := printedLen uw s
  match findNLIdx s with
  | some idx =>
    if idx ≤ W then some (printedLen uw (s.take idx), (s.take idx).length)
    else if printLen ≤ W then some (printLen, s.length)
    else nextCut uw W s
  | none =>
    if printLen ≤ W then some (printLen, s.length)
    else nextCut uw W s

/-- One drain step of the Renderer's body loop on a single line of text
(gcal.py 557-571): cut, slice past the cut point, strip the remainder. -/
def drainStep (uw : Char → Nat) (W : Nat) (t : List Char) : Option (List Char) :=
  match getCutIndex uw W t with
  | none => none
  | some pc => some (stripStr (t.drop pc.2))

/-- Iterated drain with `fuel` steps; `none` propagates a cutter failure. -/
def drainRec (uw : Char → Nat) (W : Nat) : Nat → List Char → Option (List Char)
  | 0, t => some t
  | fuel + 1, t =>
    if t = [] then some []
    else
      match drainStep uw W t with
      | none => none
      | some t' => drainRec uw W fuel t'

/-- The text a Body cell emits for the front line `t` of a bucket
(gcal.py 557-563): the fitted prefix followed by padding to the column
width. -/
def drainCell (uw : Char → Nat) (W : Nat) (t : List Char) : Option (List Char) :=
  match getCutIndex uw W t with
  | none => none
  | some pc => some (t.take pc.2 ++ List.replicate (W - pc.1) ' ')

/-- All-ones width table: the East-Asian-Width classification of every
printable ASCII character is Narrow, so on ASCII inputs the real table is
constantly 1. -/
def uw1 : Char → Nat := fun _ => 1

/-- The spec's worked example string for the cell text cutter. -/
def teamChars : List Char :=
  ['T', 'e', 'a', 'm', ' ', 'S', 't', 'a', 'n', 'd', 'u', 'p', ' ',
   'M', 'e', 'e', 't', 'i', 'n', 'g']

/-- Display width of `" ".join ws` counting one unit per separator space, the
quantity the spec's word walk accumulates (`sum(width(word)) + (count-1)`). -/
def joinPL (uw : Char → Nat) : List (List Char) → Nat
  | [] => 0
  | [w] => printedLen uw w
  | w :: v :: ws => printedLen uw w + 1 + joinPL uw (v :: ws)

/-- Statement helper: the string has no forced line break at char offset at
most `W` (spec §4.2 rule 1 does not apply). -/
def noNLWithin (W : Nat) (s : List Char) : Bool :=
  match findNLIdx s with
  | none => true
  | some idx => decide (W < idx)

/-- Modelled from the spec (§4.2 step 3, character-walk fallback), the
spec-side definition for the refinement claim about the word walk:
"accumulate width char by char and return the cut point at the first index
where accumulated width reaches or exceeds `maxWidth`". -/
def specCharWalkGo (uw : Char → Nat) (W : Nat) (acc k : Nat) : List Char → Option (Nat × Nat)
  | [] => none
  | c :: cs =>
    let acc' := acc + uw c
    if W ≤ acc' then some (acc', k + 1)
    else specCharWalkGo uw W acc' (k + 1) cs

/-- Modelled from the spec: entry point of the per-character fallback walk. -/
def specCharWalk (uw : Char → Nat) (W : Nat) (word : List Char) : Option (Nat × Nat) :=
  specCharWalkGo uw W 0 0 word

/-- Modelled from the spec (§4.2 step 3), the spec-side word walk for the
refinement claim: walk words left to right accumulating word widths plus one
unit per separator space, stop before the word that would make the joined
width exceed `maxWidth`; if at least one word was accumulated return the
accumulated width and the character length of the joined prefix, and if the
very first word alone exceeds `maxWidth` fall back to the per-character
walk. -/
def specWalkGo (uw : Char → Nat) (W : Nat) (accW accLen : Nat) (first : Bool) :
    List (List Char) → Option (Nat × Nat)
  | [] => some (accW, accLen)
  | w :: ws =>
    let sep : Nat := if first then 0 else 1
    let wl := printedLen uw w
    if W < accW + sep + wl then
      if first then specCharWalk uw W w else some (accW, accLen)
    else specWalkGo uw W (accW + sep + wl) (accLen + sep + w.length) false ws

/-- Modelled from the spec: the whole §4.2 step 3 word walk. -/
def specCut (uw : Char → Nat) (W : Nat) (s : List Char) : Option (Nat × Nat) :=
  specWalkGo uw W 0 0 true (splitWords s)

/-!
### Week bucketizer model (gcal.py 273-394) and renderer week loop

`_format_title` (strftime/locale formatting plus `_valid_title` from the
details module, which is not part of src/) and `_calendar_color` (reads the
owning calendar's records fetched by the network layer) consume data from
outside the renderer, so they are parameters `fmt` and `colf`; the Bool
argument of `fmt` is `allday`, the Bool argument of `colf` is
`override_color`.
-/

/-- Color tags are the printer's color names. -/
abbrev Color := List Char

/-- The `EventTitle` namedtuple (gcal.py 69). -/
structure EventTitle where
  title : List Char
  color : Color
deriving DecidableEq

/-- The fields of an event record the bucketizer reads: start and end
instants (minutes since local epoch) and whether `event.get("colorId")` is
truthy. -/
structure Event where
  s : Int
  e : Int
  hasColorId : Bool
deriving DecidableEq

/-- Renderer options read by the bucketizer and the week loop
(`self.options[...]`). -/
structure Options where
  cal_monday : Bool
  cal_weekend : Bool
  cal_width : Nat
  color_now_marker : Color
  override_color : Bool
deriving DecidableEq

/-- `int(dt.strftime("%w"))`: day of the week with Sunday = 0; the epoch day
1970-01-01 was a Thursday (= 4). -/
def dow (t : Int) : Int := (t.fdiv 1440 + 4).emod 7

/-- `utils.days_since_epoch` (utils.py 138-140): fractional days,
`timegm(dt.timetuple()) / 86400` — a *true* (non-flooring) division, so the
function is strictly increasing in the instant.  The model keeps the
numerator `t * 60` (seconds since the epoch) and drops the division by the
positive constant 86400, which preserves every comparison exactly; the
source's float division is likewise order-preserving for instants a full
minute apart (second-scale differences are far above double-precision
rounding error at this magnitude).  The only use of the function in the
renderer is the comparison on gcal.py 342. -/
def dse (t : Int) : Int := t * 60

/-- `utils.is_all_day` (utils.py 149-159): start and end both at local
midnight (hour and minute both zero, i.e. minutes-of-day = 0). -/
def is_all_day (ev : Event) : Bool :=
  ev.s % 1440 == 0 && ev.e % 1440 == 0

/-- `GoogleCalendarInterface._cal_monday` (gcal.py 273-281). -/
def calMonday (opts : Options) (dayNum : Int) : Int :=
  if opts.cal_monday || !opts.cal_weekend then
    let d := dayNum - 1
    if d < 0 then 6 else d
  else dayNum

/-- `_event_time_in_range` (gcal.py 283-284). -/
def eventTimeInRange (eTime rStart rEnd : Int) : Bool :=
  decide (rStart ≤ eTime) && decide (eTime < rEnd)

/-- `_event_spans_time` (gcal.py 286-287). -/
def eventSpansTime (eStart eEnd timePoint : Int) : Bool :=
  decide (eStart < timePoint) && decide (timePoint ≤ eEnd)

/-- The all-day end-date adjustment (gcal.py 321-326): all-day source end
instants mean midnight of the day after the last included day, so subtract
one day. -/
def eventEndDate (ev : Event) : Int :=
  if is_all_day ev then ev.e - 1440 else ev.e

/-- The bucketizer's membership test (gcal.py 328-338): the event starts in
the window, or it is all-day and its adjusted span covers the window
start. -/
def qualifies (startDt endDt : Int) (ev : Event) : Bool :=
  eventTimeInRange ev.s startDt endDt ||
    (is_all_day ev && eventSpansTime ev.s (eventEndDate ev) startDt)

/-- `now_in_week` (gcal.py 312-315): note both bounds are inclusive. -/
def nowInWeek (startDt endDt now : Int) : Bool :=
  !(decide (now < startDt) || decide (endDt < now))

/-- Bucketizer loop state: the seven per-day line queues and the
`now_marker_printed` flag.  `cnt` is a ghost counter, not in the source: it
increments exactly when either marker branch fires, to let the at-most-once
invariant be stated. -/
structure WState where
  buckets : List (List EventTitle)
  printed : Bool
  cnt : Nat
deriving DecidableEq

/-- `week_events[i].append(x)`: Python list indexing plus append.  All
indices produced by `_cal_monday` lie in `0..6`, so the out-of-range case
(an `IndexError` in Python) is never reached. -/
def appendAt : List (List EventTitle) → Nat → EventTitle → List (List EventTitle)
  | [], _, _ => []
  | b :: rest, 0, x => (b ++ [x]) :: rest
  | b :: rest, Nat.succ i, x => b :: appendAt rest i x

/-- Helper for Python `range(a, b + 1)`: `n` consecutive values from `a`. -/
def rangeInclGo : Nat → Nat → List Nat
  | _, 0 => []
  | a, Nat.succ n => a :: rangeInclGo (a + 1) n

/-- Python `range(a, b + 1)`. -/
def rangeIncl (a b : Nat) : List Nat :=
  rangeInclGo a (b + 1 - a)

/-- The `for day in range(event_daynum, end_daynum + 1)` append loop
(gcal.py 384-387). -/
def appendRange (bs : List (List EventTitle)) (a b : Nat) (x : EventTitle) :
    List (List EventTitle) :=
  (rangeIncl a b).foldl (fun acc d => appendAt acc d x) bs

/-- The now-marker resolution for one qualifying event (gcal.py 341-363).
Returns the updated state and `color_as_now_marker`.  The first branch
inserts the dashed divider line ahead of the event; the second recolors a
non-all-day event containing `now`. -/
def markerStep (opts : Options) (now : Int) (nowInWk : Bool) (ev : Event)
    (daynum : Nat) (st : WState) : WState × Bool :=
  if nowInWk && !st.printed then
    if dse now < dse ev.s then
      (WState.mk
        (appendAt st.buckets daynum
          ⟨'\n' :: List.replicate opts.cal_width '-', opts.color_now_marker⟩)
        true (st.cnt + 1), false)
    else if decide (ev.s ≤ now) && decide (now ≤ eventEndDate ev) &&
        !is_all_day ev then
      ({ st with printed := true, cnt := st.cnt + 1 }, true)
    else (st, false)
  else (st, false)

/-- Event line color precedence (gcal.py 365-370). -/
def eventColor (opts : Options) (colf : Event → Bool → Color)
    (colorAsNowMarker : Bool) (ev : Event) : Color :=
  if colorAsNowMarker then opts.color_now_marker
  else if opts.override_color && ev.hasColorId then colf ev true
  else colf ev false

/-- `event_daynum` (gcal.py 318): bucket index of the event's start day
under the configured week-start convention. -/
def eventDayNum (opts : Options) (ev : Event) : Nat :=
  (calMonday opts (dow ev.s)).toNat

/-- `end_daynum` (gcal.py 376-381): clipped end-day index of a multi-day
all-day event — the last column when the event ends after the window. -/
def endDayIdx (opts : Options) (endDt : Int) (ev : Event) : Nat :=
  if decide (endDt < eventEndDate ev) then 6
  else (calMonday opts (dow (eventEndDate ev))).toNat

/-- The clamped start-day index (gcal.py 382-383): `event_daynum`, clamped
to 0 when it exceeds `end_daynum`. -/
def startDayIdx (opts : Options) (endDt : Int) (ev : Event) : Nat :=
  if decide (endDayIdx opts endDt ev < eventDayNum opts ev) then 0
  else eventDayNum opts ev

/-- Appending the titled render line(s) for one qualifying event
(gcal.py 372-393): multi-day all-day events get one line per clipped day
index, others a single line in their start-day bucket. -/
def appendTitleLines (opts : Options) (fmt : Event → Bool → List Char)
    (endDt : Int) (ev : Event) (color : Color) (daynum : Nat)
    (bs : List (List EventTitle)) : List (List EventTitle) :=
  let titlestr := fmt ev (is_all_day ev)
  if is_all_day ev && decide (ev.s < eventEndDate ev) then
    let endDaynum : Nat := endDayIdx opts endDt ev
    let startDaynum : Nat := if decide (endDaynum < daynum) then 0 else daynum
    appendRange bs startDaynum endDaynum ⟨'\n' :: titlestr, color⟩
  else
    appendAt bs daynum ⟨'\n' :: titlestr, color⟩

/-- The body of the `for event in event_list` loop of `_get_week_events`
(gcal.py 317-393). -/
def processEvent (opts : Options) (fmt : Event → Bool → List Char)
    (colf : Event → Bool → Color) (startDt endDt now : Int) (nowInWk : Bool)
    (st : WState) (ev : Event) : WState :=
  let eventDaynum := eventDayNum opts ev
  if qualifies startDt endDt ev then
    let res := markerStep opts now nowInWk ev eventDaynum st
    let color := eventColor opts colf res.2 ev
    { res.1 with
      buckets := appendTitleLines opts fmt endDt ev color eventDaynum
        res.1.buckets }
  else st

/-- `_get_week_events` (gcal.py 309-394), with the ghost marker counter. -/
def getWeekEventsFull (opts : Options) (fmt : Event → Bool → List Char)
    (colf : Event → Bool → Color) (startDt endDt now : Int)
    (events : List Event) : WState :=
  events.foldl
    (processEvent opts fmt colf startDt endDt now (nowInWeek startDt endDt now))
    ⟨List.replicate 7 [], false, 0⟩

/-- The bucket array `_get_week_events` returns. -/
def getWeekEvents (opts : Options) (fmt : Event → Bool → List Char)
    (colf : Event → Bool → Color) (startDt endDt now : Int)
    (events : List Event) : List (List EventTitle) :=
  (getWeekEventsFull opts fmt colf startDt endDt now events).buckets

/-- `days = 7 if self.options["cal_weekend"] else 5` (gcal.py 453). -/
def visibleDays (opts : Options) : Nat :=
  if opts.cal_weekend then 7 else 5

/-- Number of marker actions (divider insertions plus recolorings) in one
window. -/
def weekMarkerCount (opts : Options) (fmt : Event → Bool → List Char)
    (colf : Event → Bool → Color) (startDt endDt now : Int)
    (events : List Event) : Nat :=
  (getWeekEventsFull opts fmt colf startDt endDt now events).cnt

/-- Marker actions across a whole `_GraphEvents` render: events starting
before the first week are dropped (gcal.py 449-450), then one window per
week, each advanced by seven days (gcal.py 506-542). -/
def renderMarkerTotal (opts : Options) (fmt : Event → Bool → List Char)
    (colf : Event → Bool → Color) (S : Int) (count : Nat) (now : Int)
    (events : List Event) : Nat :=
  let evs := events.dropWhile (fun ev => decide (ev.s < S))
  ((List.range count).map (fun k : Nat =>
    weekMarkerCount opts fmt colf (S + 10080 * (k : Int))
      (S + 10080 * ((k : Int) + 1)) now evs)).sum

/-- Modelled from the spec: the repository validates the column width in its
argument-parsing layer (gcalcli/argparsers.py, imported by cli.py but not
present under src/), and the spec states the renderer "fails fast with a
configuration error before entering Headers" when `columnWidth < 1`.  This
checked entry point guards the week loop accordingly: on a width below 1 it
produces the configuration error and no per-week output. -/
def checkedRender (opts : Options) (fmt : Event → Bool → List Char)
    (colf : Event → Bool → Color) (S : Int) (count : Nat) (now : Int)
    (events : List Event) : Except Unit (List (List (List EventTitle))) :=
  if opts.cal_width < 1 then Except.error ()
  else
    Except.ok ((List.range count).map (fun k : Nat =>
      getWeekEvents opts fmt colf (S + 10080 * (k : Int))
        (S + 10080 * ((k : Int) + 1)) now
        (events.dropWhile (fun ev => decide (ev.s < S)))))

section CutterLemmas

variable {uw : Char → Nat} {W : Nat}

theorem dropWhile_length_le {α : Type} (p : α → Bool) (l : List α) :
    (l.dropWhile p).length ≤ l.length :=
  (List.dropWhile_suffix p).sublist.length_le

theorem splitWords_nil : splitWords [] = [] := rfl

theorem splitWordsAux_ne_nil :
    ∀ (cs acc : List Char), acc ≠ [] →
      splitWordsAux acc cs =
        (acc ++ cs.takeWhile (fun d => !isSpace d)) ::
          splitWords (cs.dropWhile (fun d => !isSpace d)) := by
  intro cs
  induction cs with
  | nil =>
    intro acc hacc
    simp [splitWordsAux, hacc, splitWords]
  | cons c cs ih =>
    intro acc hacc
    rw [splitWordsAux]
    by_cases hc : isSpace c = true
    · rw [if_pos hc, if_neg hacc]
      rw [List.takeWhile_cons, List.dropWhile_cons]
      simp only [hc, Bool.not_true, if_neg (by simp : ¬ (false = true))]
      simp only [List.append_nil]
      congr 1
      rw [splitWords, splitWordsAux, if_pos hc, if_pos rfl]
    · rw [if_neg hc]
      rw [ih (acc ++ [c]) (by simp)]
      rw [List.takeWhile_cons, List.dropWhile_cons]
      simp only [hc, Bool.not_false]
      rw [if_pos (by simp [Bool.not_eq_true] at hc; simp [hc])]
      rw [if_pos (by simp [Bool.not_eq_true] at hc; simp [hc])]
      simp

/-- Unfolding characterization of `splitWords` on a cons cell: the first
maximal non-space run becomes a word. -/
theorem splitWords_cons (c : Char) (cs : List Char) :
    splitWords (c :: cs) =
      if isSpace c then splitWords cs
      else (c :: cs.takeWhile (fun d => !isSpace d)) ::
        splitWords (cs.dropWhile (fun d => !isSpace d)) := by
  rw [splitWords, splitWordsAux]
  by_cases hc : isSpace c = true
  · rw [if_pos hc, if_pos rfl, if_pos hc]
    rfl
  · rw [if_neg hc, if_neg hc]
    simp only [List.nil_append]
    rw [splitWordsAux_ne_nil cs [c] (by simp)]
    simp

theorem printedLen_nil : printedLen uw [] = 0 := rfl

theorem printedLen_cons (c : Char) (s : List Char) :
    printedLen uw (c :: s) = uw c + printedLen uw s := by
  simp [printedLen]

theorem length_le_printedLen (huw : ∀ c, 1 ≤ uw c) (s : List Char) :
    s.length ≤ printedLen uw s := by
  induction s with
  | nil => simp [printedLen]
  | cons c cs ih =>
    rw [printedLen_cons, List.length_cons]
    have := huw c
    omega

theorem printedLen_reverse (s : List Char) :
    printedLen uw s.reverse = printedLen uw s := by
  simp [printedLen, List.sum_reverse]

theorem printedLen_dropWhile_le (p : Char → Bool) (s : List Char) :
    printedLen uw (s.dropWhile p) ≤ printedLen uw s := by
  induction s with
  | nil => exact Nat.le_refl _
  | cons c cs ih =>
    rw [List.dropWhile]
    split
    · rw [printedLen_cons]; omega
    · exact Nat.le_refl _

theorem printedLen_stripStr_le (s : List Char) :
    printedLen uw (stripStr s) ≤ printedLen uw s := by
  unfold stripStr
  calc printedLen uw (((s.dropWhile isSpace).reverse.dropWhile isSpace).reverse)
      = printedLen uw ((s.dropWhile isSpace).reverse.dropWhile isSpace) :=
        printedLen_reverse _
    _ ≤ printedLen uw (s.dropWhile isSpace).reverse := printedLen_dropWhile_le _ _
    _ = printedLen uw (s.dropWhile isSpace) := printedLen_reverse _
    _ ≤ printedLen uw s := printedLen_dropWhile_le _ _

theorem stripStr_length_le (s : List Char) : (stripStr s).length ≤ s.length := by
  unfold stripStr
  calc (((s.dropWhile isSpace).reverse.dropWhile isSpace).reverse).length
      = ((s.dropWhile isSpace).reverse.dropWhile isSpace).length := by
        rw [List.length_reverse]
    _ ≤ ((s.dropWhile isSpace).reverse).length := dropWhile_length_le _ _
    _ = (s.dropWhile isSpace).length := by rw [List.length_reverse]
    _ ≤ s.length := dropWhile_length_le _ _

theorem stripStr_cons_of_isSpace {c : Char} (hc : isSpace c = true) (s : List Char) :
    stripStr (c :: s) = stripStr s := by
  unfold stripStr
  rw [List.dropWhile_cons_of_pos hc]

theorem stripStr_nil : stripStr [] = ([] : List Char) := rfl

theorem dropWhile_eq_self_of_length {α : Type} {p : α → Bool} {l : List α}
    (h : (l.dropWhile p).length = l.length) : l.dropWhile p = l := by
  cases l with
  | nil => rfl
  | cons a l =>
    rw [List.dropWhile_cons] at h ⊢
    by_cases hp : p a = true
    · rw [if_pos hp] at h
      exact absurd h (by have := dropWhile_length_le p l; simp; omega)
    · rw [if_neg hp]

theorem stripStr_eq_self_of_length {s : List Char}
    (h : (stripStr s).length = s.length) : stripStr s = s := by
  have h1 : (s.dropWhile isSpace).length = s.length := by
    have := stripStr_length_le s
    have l1 : (stripStr s).length ≤ (s.dropWhile isSpace).length := by
      unfold stripStr
      rw [List.length_reverse]
      calc ((s.dropWhile isSpace).reverse.dropWhile isSpace).length
          ≤ ((s.dropWhile isSpace).reverse).length := dropWhile_length_le _ _
        _ = (s.dropWhile isSpace).length := by rw [List.length_reverse]
    have l2 := dropWhile_length_le isSpace s
    omega
  have e1 : s.dropWhile isSpace = s := dropWhile_eq_self_of_length h1
  have h2 : (((s.dropWhile isSpace).reverse.dropWhile isSpace)).length
      = ((s.dropWhile isSpace).reverse).length := by
    unfold stripStr at h
    rw [List.length_reverse] at h
    rw [h, e1, List.length_reverse]
  have e2 := dropWhile_eq_self_of_length h2
  unfold stripStr
  rw [e1] at e2 ⊢
  rw [e2, List.reverse_reverse]

theorem all_dropWhile_append {α : Type} {p : α → Bool} {l m : List α}
    (h : l.all p = true) : (l ++ m).dropWhile p = m.dropWhile p := by
  induction l with
  | nil => rfl
  | cons a l ih =>
    simp only [List.all_cons, Bool.and_eq_true] at h
    rw [List.cons_append, List.dropWhile_cons_of_pos h.1]
    exact ih h.2

theorem dropWhile_eq_self_of_all_not {α : Type} {p : α → Bool} {l : List α}
    (h : l.all (fun x => !p x) = true) : l.dropWhile p = l := by
  cases l with
  | nil => rfl
  | cons a l =>
    simp only [List.all_cons, Bool.and_eq_true, Bool.not_eq_true'] at h
    exact List.dropWhile_cons_of_neg (by simp [h.1])

theorem takeWhile_all {α : Type} (p : α → Bool) (l : List α) :
    (l.takeWhile p).all p = true := by
  induction l with
  | nil => rfl
  | cons a l ih =>
    rw [List.takeWhile_cons]
    by_cases hp : p a = true
    · rw [if_pos hp]; simp [hp, ih]
    · rw [if_neg hp]; rfl

theorem splitWords_eq_nil_iff (s : List Char) :
    splitWords s = [] ↔ s.all isSpace = true := by
  cases s with
  | nil => simp [splitWords_nil]
  | cons c cs =>
    rw [splitWords_cons]
    by_cases hc : isSpace c = true
    · rw [if_pos hc]
      simp only [List.all_cons, hc, Bool.true_and]
      exact splitWords_eq_nil_iff cs
    · rw [if_neg hc]
      simp [hc]
termination_by s.length
decreasing_by all_goals (try subst_vars); all_goals first
  | omega
  | (simp only [List.length_cons]; omega)

theorem splitWords_word_ne_nil (s : List Char) :
    ∀ w ∈ splitWords s, w ≠ [] := by
  intro w hw
  cases s with
  | nil => simp [splitWords_nil] at hw
  | cons c cs =>
    rw [splitWords_cons] at hw
    by_cases hc : isSpace c = true
    · rw [if_pos hc] at hw
      exact splitWords_word_ne_nil cs w hw
    · rw [if_neg hc] at hw
      rcases List.mem_cons.mp hw with h | h
      · subst h; exact List.cons_ne_nil _ _
      · exact splitWords_word_ne_nil _ w h
termination_by s.length
decreasing_by all_goals (try subst_vars); all_goals first
  | omega
  | (simp only [List.length_cons]; omega)
  | (simp only [List.length_cons];
     exact Nat.lt_succ_of_le (List.dropWhile_suffix _).sublist.length_le)

/-- If the string splits into exactly one word, stripping it yields exactly
that word (the word is the unique maximal non-space run). -/
theorem stripStr_of_splitWords_single (s : List Char) :
    ∀ (w : List Char), splitWords s = [w] → stripStr s = w := by
  intro w hw
  cases s with
  | nil => simp [splitWords_nil] at hw
  | cons c cs =>
    rw [splitWords_cons] at hw
    by_cases hc : isSpace c = true
    · rw [if_pos hc] at hw
      rw [stripStr_cons_of_isSpace hc]
      exact stripStr_of_splitWords_single cs w hw
    · rw [if_neg hc] at hw
      rw [List.cons.injEq] at hw
      obtain ⟨hweq, hrest⟩ := hw
      have hall : (cs.dropWhile (fun d => !isSpace d)).all isSpace = true :=
        (splitWords_eq_nil_iff _).mp hrest
      have hdecomp : cs = cs.takeWhile (fun d => !isSpace d) ++
          cs.dropWhile (fun d => !isSpace d) :=
        (List.takeWhile_append_dropWhile _ _).symm
      have hword_all : (c :: cs.takeWhile (fun d => !isSpace d)).all
          (fun x => !isSpace x) = true := by
        simp only [List.all_cons, Bool.and_eq_true]
        exact ⟨by simp [hc], takeWhile_all _ _⟩
      unfold stripStr
      rw [List.dropWhile_cons_of_neg (by simp [hc])]
      conv_lhs => rw [hdecomp]
      rw [show c :: (cs.takeWhile (fun d => !isSpace d) ++
            cs.dropWhile (fun d => !isSpace d)) =
          (c :: cs.takeWhile (fun d => !isSpace d)) ++
            cs.dropWhile (fun d => !isSpace d) from rfl]
      rw [List.reverse_append]
      rw [all_dropWhile_append (by rw [List.all_reverse]; exact hall)]
      rw [dropWhile_eq_self_of_all_not (by rw [List.all_reverse]; exact hword_all)]
      rw [List.reverse_reverse]
      exact hweq.symm ▸ rfl
termination_by s.length
decreasing_by all_goals (try subst_vars); all_goals first
  | omega
  | (simp only [List.length_cons]; omega)

theorem findNLIdx_lt_length : ∀ {s : List Char} {i : Nat},
    findNLIdx s = some i → i < s.length := by
  intro s
  induction s with
  | nil => intro i h; simp [findNLIdx] at h
  | cons c cs ih =>
    intro i h
    rw [findNLIdx] at h
    by_cases hc : c = '\n'
    · rw [if_pos hc] at h
      cases h
      simp
    · rw [if_neg hc] at h
      cases hj : findNLIdx cs with
      | none => rw [hj] at h; simp at h
      | some j =>
        rw [hj] at h
        simp only [Option.map_some'] at h
        cases h
        have := ih hj
        simp only [List.length_cons]
        omega

theorem findNLIdx_drop : ∀ {s : List Char} {i : Nat},
    findNLIdx s = some i → ∃ t, s.drop i = '\n' :: t := by
  intro s
  induction s with
  | nil => intro i h; simp [findNLIdx] at h
  | cons c cs ih =>
    intro i h
    rw [findNLIdx] at h
    by_cases hc : c = '\n'
    · rw [if_pos hc] at h
      cases h
      exact ⟨cs, by simp [hc]⟩
    · rw [if_neg hc] at h
      cases hj : findNLIdx cs with
      | none => rw [hj] at h; simp at h
      | some j =>
        rw [hj] at h
        simp only [Option.map_some'] at h
        cases h
        obtain ⟨t, ht⟩ := ih hj
        exact ⟨t, by simpa using ht⟩

theorem findNLIdx_pos_of_head {c : Char} {cs : List Char} {i : Nat}
    (hc : c ≠ '\n') (h : findNLIdx (c :: cs) = some i) : 1 ≤ i := by
  rw [findNLIdx, if_neg hc] at h
  cases hj : findNLIdx cs with
  | none => rw [hj] at h; simp at h
  | some j => rw [hj] at h; simp only [Option.map_some'] at h; cases h; omega

theorem wordCutGo_snd {uw : Char → Nat} {W : Nat} :
    ∀ {w : List Char} {st k a b : Nat},
      wordCutGo uw W st k w = some (a, b) → k + 1 ≤ b := by
  intro w
  induction w with
  | nil => intro st k a b h; simp [wordCutGo] at h
  | cons c cs ih =>
    intro st k a b h
    rw [wordCutGo] at h
    split at h
    · cases h; omega
    · have := ih h; omega

theorem wordCutGo_some {uw : Char → Nat} {W : Nat} :
    ∀ {w : List Char} {st k : Nat}, w ≠ [] → W ≤ st + printedLen uw w →
      ∃ a b, wordCutGo uw W st k w = some (a, b) := by
  intro w
  induction w with
  | nil => intro st k h _; exact absurd rfl h
  | cons c cs ih =>
    intro st k _ hle
    rw [wordCutGo]
    by_cases htr : W ≤ st + uw c
    · rw [if_pos htr]; exact ⟨_, _, rfl⟩
    · rw [if_neg htr]
      apply ih
      · intro hnil
        subst hnil
        rw [printedLen_cons, printedLen_nil] at hle
        omega
      · rw [printedLen_cons] at hle
        omega

theorem wordCutGo_exact {uw : Char → Nat} {W : Nat} (huw : ∀ c, 1 ≤ uw c) :
    ∀ {w : List Char} {st k : Nat}, w ≠ [] → st + printedLen uw w = W →
      wordCutGo uw W st k w = some (W, k + w.length) := by
  intro w
  induction w with
  | nil => intro st k h _; exact absurd rfl h
  | cons c cs ih =>
    intro st k _ hsum
    rw [printedLen_cons] at hsum
    rw [wordCutGo]
    cases cs with
    | nil =>
      rw [printedLen_nil] at hsum
      have hcond : W ≤ st + uw c := by omega
      rw [if_pos hcond]
      have heq : st + uw c = W := by omega
      rw [heq]
      rfl
    | cons d ds =>
      have hpl : 1 ≤ printedLen uw (d :: ds) := by
        rw [printedLen_cons]
        have := huw d
        omega
      have hncond : ¬ W ≤ st + uw c := by omega
      rw [if_neg hncond]
      have hrec := @ih (st + uw c) (k + 1) (List.cons_ne_nil d ds) (by omega)
      rw [hrec]
      have hlen : k + 1 + (d :: ds).length = k + (c :: d :: ds).length := by
        simp only [List.length_cons]; omega
      rw [hlen]

theorem specCharWalkGo_eq_wordCutGo {uw : Char → Nat} {W : Nat} :
    ∀ (w : List Char) (st k : Nat),
      specCharWalkGo uw W st k w = wordCutGo uw W st k w := by
  intro w
  induction w with
  | nil => intro st k; rfl
  | cons c cs ih =>
    intro st k
    rw [specCharWalkGo, wordCutGo]
    split
    · rfl
    · exact ih _ _

theorem nextCutGo_pos {uw : Char → Nat} {W : Nat} :
    ∀ (ws : List (List Char)) (pl ci i a b : Nat), 1 ≤ ci →
      nextCutGo uw W pl ci i ws = some (a, b) → 1 ≤ b := by
  intro ws
  induction ws with
  | nil => intro pl ci i a b _ h; simp [nextCutGo] at h
  | cons w rest ih =>
    intro pl ci i a b hci h
    cases rest with
    | nil =>
      rw [nextCutGo] at h
      split at h
      · rw [if_neg (by omega)] at h
        cases h; exact hci
      · cases h; exact hci
    | cons v rest2 =>
      rw [nextCutGo] at h
      split at h
      · rw [if_neg (by omega)] at h
        cases h; exact hci
      · exact ih _ _ _ _ _ (by omega) h

theorem nextCutGo_some_of_pos {uw : Char → Nat} {W : Nat} :
    ∀ (ws : List (List Char)) (pl ci i : Nat), ws ≠ [] → 1 ≤ ci →
      ∃ p, nextCutGo uw W pl ci i ws = some p := by
  intro ws
  induction ws with
  | nil => intro pl ci i h _; exact absurd rfl h
  | cons w rest ih =>
    intro pl ci i _ hci
    cases rest with
    | nil =>
      rw [nextCutGo]
      split
      · rw [if_neg (by omega)]; exact ⟨_, rfl⟩
      · exact ⟨_, rfl⟩
    | cons v rest2 =>
      rw [nextCutGo]
      split
      · rw [if_neg (by omega)]; exact ⟨_, rfl⟩
      · exact ih _ _ _ (List.cons_ne_nil _ _) (by omega)

/-- At the top-level call the word walk can only return character count 0
when the whole word list is a single word narrower than the budget (the
Python loop then falls through, and `len(" ".join(words[:0]))` is 0). -/
theorem nextCutGo_top_zero {uw : Char → Nat} {W : Nat}
    {ws : List (List Char)} {a : Nat}
    (hwords : ∀ w ∈ ws, w ≠ [])
    (h : nextCutGo uw W 0 0 0 ws = some (a, 0)) :
    ∃ w, ws = [w] ∧ printedLen uw w < W := by
  cases ws with
  | nil => simp [nextCutGo] at h
  | cons w rest =>
    cases rest with
    | nil =>
      rw [nextCutGo] at h
      split at h
      · rw [if_pos rfl] at h
        have := wordCutGo_snd h
        omega
      · rename_i hng
        exact ⟨w, rfl, by omega⟩
    | cons v rest2 =>
      rw [nextCutGo] at h
      split at h
      · rw [if_pos rfl] at h
        have := wordCutGo_snd h
        omega
      · have hw : w ≠ [] := hwords w (by simp)
        have hlen : 1 ≤ w.length := by
          cases w with
          | nil => exact absurd rfl hw
          | cons _ _ => simp
        have := @nextCutGo_pos uw W (v :: rest2) _ _ _ _ _
          (by simpa using hlen) h
        omega

theorem printedLen_pos (huw : ∀ c, 1 ≤ uw c) {s : List Char} (hs : s ≠ []) :
    1 ≤ printedLen uw s := by
  have h1 : 1 ≤ s.length := List.length_pos.mpr hs
  have := length_le_printedLen huw s
  omega

/-- When the budget is exceeded and any newline sits beyond the budget, the
cutter reduces to the word walk (gcal.py 440-441). -/
theorem getCutIndex_over {s : List Char} (hover : W < printedLen uw s)
    (hnl : ∀ idx, findNLIdx s = some idx → W < idx) :
    getCutIndex uw W s = nextCut uw W s := by
  rw [getCutIndex]
  split
  · rename_i idx h
    have hidx := hnl idx h
    rw [if_neg (by omega), if_neg (by omega)]
  · rw [if_neg (by omega)]

/-- The word walk, called on an over-budget string whose word list either has
at least two words or starts with a word at least as wide as the budget,
returns a cut of at least one character. -/
theorem nextCut_top_pos (hW : 1 ≤ W) {s : List Char}
    (hcase : 2 ≤ (splitWords s).length ∨
      W ≤ printedLen uw ((splitWords s).headD [])) :
    ∃ p, nextCut uw W s = some p ∧ 1 ≤ p.2 := by
  rw [nextCut]
  cases hws : splitWords s with
  | nil =>
    exfalso
    rw [hws] at hcase
    rcases hcase with h2 | hh
    · simp at h2
    · rw [List.headD_nil, printedLen_nil] at hh
      omega
  | cons w rest =>
    have hw0 : w ≠ [] := splitWords_word_ne_nil s w (by rw [hws]; exact List.mem_cons_self w rest)
    have hwlen : 1 ≤ w.length := List.length_pos.mpr hw0
    by_cases htr : W ≤ printedLen uw w + 0
    · obtain ⟨a, b, hab⟩ := @wordCutGo_some uw W w 0 0 hw0 (by simpa using htr)
      have hb : 1 ≤ b := wordCutGo_snd hab
      cases rest with
      | nil =>
        rw [nextCutGo, if_pos htr, if_pos rfl, wordCut]
        exact ⟨(a, b), hab, hb⟩
      | cons v r2 =>
        rw [nextCutGo, if_pos htr, if_pos rfl, wordCut]
        exact ⟨(a, b), hab, hb⟩
    · have hwl : printedLen uw w < W := by omega
      cases rest with
      | nil =>
        exfalso
        rw [hws] at hcase
        rcases hcase with h2 | hh
        · simp at h2
        · rw [List.headD_cons] at hh
          omega
      | cons v r2 =>
        rw [nextCutGo, if_neg htr]
        have hci : 1 ≤ 0 + w.length + (if (0 : Nat) = 0 then 0 else 1) := by
          rw [if_pos rfl]
          omega
        obtain ⟨p, hp⟩ := nextCutGo_some_of_pos (v :: r2) _ _ _ (List.cons_ne_nil _ _) hci
        refine ⟨p, hp, ?_⟩
        obtain ⟨a, b⟩ := p
        exact nextCutGo_pos (v :: r2) _ _ _ a b hci hp

theorem dropWhile_head_not {α : Type} {p : α → Bool} :
    ∀ {l : List α} {x : α} {rest : List α},
      l.dropWhile p = x :: rest → p x = false := by
  intro l
  induction l with
  | nil => intro x rest hl; simp at hl
  | cons a l ih =>
    intro x rest hl
    rw [List.dropWhile_cons] at hl
    by_cases hp : p a = true
    · rw [if_pos hp] at hl
      exact ih hl
    · rw [if_neg hp] at hl
      cases hl
      exact Bool.not_eq_true _ ▸ hp

/-- A non-empty stripped string starts with a non-space character and hence
is not all whitespace. -/
theorem stripStr_not_allSpace (s : List Char) (h : stripStr s ≠ []) :
    (stripStr s).all isSpace = false := by
  obtain ⟨x, xs, hxs⟩ : ∃ x xs, stripStr s = x :: xs := by
    cases hss : stripStr s with
    | nil => exact absurd hss h
    | cons a l => exact ⟨a, l, rfl⟩
  have hpref : s.dropWhile isSpace =
      stripStr s ++ ((s.dropWhile isSpace).reverse.takeWhile isSpace).reverse := by
    calc s.dropWhile isSpace
        = ((s.dropWhile isSpace).reverse).reverse := (List.reverse_reverse _).symm
      _ = (((s.dropWhile isSpace).reverse.takeWhile isSpace) ++
            ((s.dropWhile isSpace).reverse.dropWhile isSpace)).reverse := by
          rw [List.takeWhile_append_dropWhile]
      _ = ((s.dropWhile isSpace).reverse.dropWhile isSpace).reverse ++
            ((s.dropWhile isSpace).reverse.takeWhile isSpace).reverse := by
          rw [List.reverse_append]
      _ = stripStr s ++ ((s.dropWhile isSpace).reverse.takeWhile isSpace).reverse := rfl
  obtain ⟨T, hprefT⟩ : ∃ T, s.dropWhile isSpace = stripStr s ++ T := ⟨_, hpref⟩
  have hcons : s.dropWhile isSpace = x :: (xs ++ T) := by
    rw [hprefT, hxs, List.cons_append]
  have hx : isSpace x = false := dropWhile_head_not hcons
  rw [hxs]
  simp [hx]

/-- Rule 1 of the cutter: a forced line break within the budget wins
(gcal.py 432-435). -/
theorem getCutIndex_rule1 {s : List Char} {idx : Nat}
    (hnl : findNLIdx s = some idx) (hidx : idx ≤ W) :
    getCutIndex uw W s =
      some (printedLen uw (s.take idx), (s.take idx).length) := by
  rw [getCutIndex]
  split
  · rename_i j hj
    rw [hnl] at hj
    cases hj
    rw [if_pos hidx]
  · rename_i hj
    rw [hnl] at hj
    exact Option.noConfusion hj

/-- Rule 2 of the cutter: a string that fits is returned whole
(gcal.py 437-438). -/
theorem getCutIndex_fit {s : List Char}
    (hnl : ∀ i, findNLIdx s = some i → W < i)
    (hfit : printedLen uw s ≤ W) :
    getCutIndex uw W s = some (printedLen uw s, s.length) := by
  rw [getCutIndex]
  split
  · rename_i j hj
    have := hnl j hj
    rw [if_neg (by omega), if_pos hfit]
  · rw [if_pos hfit]

/-- Progress of the word walk through the drain step: on an over-budget
string with at least one non-space character the walk succeeds and the
trimmed remainder is strictly shorter. -/
theorem nextCut_drain {s : List Char}
    (hover : W < printedLen uw s) (hallsp : s.all isSpace = false) :
    ∃ p, nextCut uw W s = some p ∧
      (stripStr (s.drop p.2)).length < s.length := by
  have hs : s ≠ [] := by
    intro he
    subst he
    rw [printedLen_nil] at hover
    omega
  have hslen : 0 < s.length := List.length_pos.mpr hs
  have hexists : ∃ p, nextCut uw W s = some p := by
    rw [nextCut]
    cases hws : splitWords s with
    | nil =>
      exfalso
      have := (splitWords_eq_nil_iff s).mp hws
      rw [this] at hallsp
      exact Bool.noConfusion hallsp
    | cons w rest =>
      have hw0 : w ≠ [] :=
        splitWords_word_ne_nil s w (by rw [hws]; exact List.mem_cons_self w rest)
      by_cases htr : W ≤ printedLen uw w + 0
      · obtain ⟨a, b, hab⟩ :=
          @wordCutGo_some uw W w 0 0 hw0 (by simpa using htr)
        cases rest with
        | nil =>
          rw [nextCutGo, if_pos htr, if_pos rfl, wordCut]
          exact ⟨(a, b), hab⟩
        | cons v r2 =>
          rw [nextCutGo, if_pos htr, if_pos rfl, wordCut]
          exact ⟨(a, b), hab⟩
      · cases rest with
        | nil =>
          rw [nextCutGo, if_neg htr]
          exact ⟨_, rfl⟩
        | cons v r2 =>
          rw [nextCutGo, if_neg htr]
          have hwlen : 0 < w.length := List.length_pos.mpr hw0
          obtain ⟨p, hp⟩ := nextCutGo_some_of_pos (v :: r2)
            (0 + printedLen uw w + if 0 = 0 then 0 else 1)
            (0 + w.length + if 0 = 0 then 0 else 1) (0 + 1)
            (List.cons_ne_nil _ _) (by simpa using hwlen)
          exact ⟨p, hp⟩
  obtain ⟨⟨a, b⟩, hp⟩ := hexists
  refine ⟨(a, b), hp, ?_⟩
  show (stripStr (s.drop b)).length < s.length
  by_cases hb : 1 ≤ b
  · have h1 : (stripStr (s.drop b)).length ≤ (s.drop b).length := stripStr_length_le _
    rw [List.length_drop] at h1
    omega
  · have hb0 : b = 0 := by omega
    subst hb0
    rw [nextCut] at hp
    obtain ⟨w, hws, hwl⟩ :=
      nextCutGo_top_zero (fun w hw => splitWords_word_ne_nil s w hw) hp
    have hstrip : stripStr s = w := stripStr_of_splitWords_single s w hws
    rw [List.drop_zero, hstrip]
    by_contra hcon
    push_neg at hcon
    have hle : w.length ≤ s.length := by
      have := stripStr_length_le s
      rw [hstrip] at this
      exact this
    have heq2 : (stripStr s).length = s.length := by
      rw [hstrip]
      omega
    have hid : stripStr s = s := stripStr_eq_self_of_length heq2
    have hsw : s = w := by rw [← hid, hstrip]
    rw [hsw] at hover
    omega

/-- One drain step of the Body loop always makes strict progress on a
non-empty line that either fits the budget or contains a non-space
character. -/
theorem drainStep_progress {s : List Char}
    (hs : s ≠ []) (hgood : s.all isSpace = false ∨ printedLen uw s ≤ W) :
    ∃ t, drainStep uw W s = some t ∧ t.length < s.length := by
  have hslen : 0 < s.length := List.length_pos.mpr hs
  rw [drainStep]
  cases hnl : findNLIdx s with
  | some idx =>
    by_cases hidx : idx ≤ W
    · rw [getCutIndex_rule1 hnl hidx]
      refine ⟨_, rfl, ?_⟩
      have hlt := findNLIdx_lt_length hnl
      have htl : (s.take idx).length = idx := by
        rw [List.length_take]
        omega
      rw [htl]
      obtain ⟨u, hu⟩ := findNLIdx_drop hnl
      rw [hu, stripStr_cons_of_isSpace (by rfl) u]
      have h1 : (stripStr u).length ≤ u.length := stripStr_length_le u
      have h2 : (s.drop idx).length = u.length + 1 := by rw [hu]; rfl
      rw [List.length_drop] at h2
      omega
    · by_cases hfit : printedLen uw s ≤ W
      · rw [getCutIndex_fit (fun i hi => by rw [hnl] at hi; cases hi; omega) hfit]
        refine ⟨_, rfl, ?_⟩
        rw [List.drop_length, stripStr_nil]
        simpa using hslen
      · have hover : W < printedLen uw s := by omega
        have hallsp : s.all isSpace = false := by
          rcases hgood with h | h
          · exact h
          · omega
        rw [getCutIndex_over hover (fun i hi => by rw [hnl] at hi; cases hi; omega)]
        obtain ⟨p, hp, hlt⟩ := nextCut_drain hover hallsp
        rw [hp]
        exact ⟨_, rfl, hlt⟩
  | none =>
    by_cases hfit : printedLen uw s ≤ W
    · rw [getCutIndex_fit (fun i hi => by rw [hnl] at hi; cases hi) hfit]
      refine ⟨_, rfl, ?_⟩
      rw [List.drop_length, stripStr_nil]
      simpa using hslen
    · have hover : W < printedLen uw s := by omega
      have hallsp : s.all isSpace = false := by
        rcases hgood with h | h
        · exact h
        · omega
      rw [getCutIndex_over hover (fun i hi => by rw [hnl] at hi; cases hi)]
      obtain ⟨p, hp, hlt⟩ := nextCut_drain hover hallsp
      rw [hp]
      exact ⟨_, rfl, hlt⟩

theorem drainRec_nil (n : Nat) : drainRec uw W n [] = some [] := by
  cases n with
  | zero => rfl
  | succ n => rw [drainRec, if_pos rfl]

theorem drainRec_fuel_mono :
    ∀ (m n : Nat) (s : List Char), n ≤ m →
      drainRec uw W n s = some [] → drainRec uw W m s = some [] := by
  intro m
  induction m with
  | zero =>
    intro n s hnm h
    have : n = 0 := by omega
    subst this
    exact h
  | succ m ih =>
    intro n s hnm h
    cases n with
    | zero =>
      rw [drainRec] at h
      cases h
      exact drainRec_nil _
    | succ k =>
      rw [drainRec] at h ⊢
      by_cases hse : s = []
      · rw [if_pos hse]
      · rw [if_neg hse] at h ⊢
        cases hstep : drainStep uw W s with
        | none => rw [hstep] at h; exact Option.noConfusion h
        | some t =>
          rw [hstep] at h
          exact ih k t (by omega) h

/-- The drain loop empties any line that fits the budget or contains a
non-space character, within `length` iterations. -/
theorem drain_terminates :
    ∀ (n : Nat) (s : List Char), s.length ≤ n →
      (s.all isSpace = false ∨ printedLen uw s ≤ W) →
      drainRec uw W s.length s = some [] := by
  intro n
  induction n with
  | zero =>
    intro s hlen _
    have : s = [] := List.length_eq_zero.mp (by omega)
    subst this
    exact drainRec_nil _
  | succ n ih =>
    intro s hlen hgood
    by_cases hse : s = []
    · subst hse
      exact drainRec_nil _
    · obtain ⟨t, hstep, hlt⟩ := drainStep_progress hse hgood
      have hgt : t.all isSpace = false ∨ printedLen uw t ≤ W := by
        by_cases hte : t = []
        · right
          rw [hte, printedLen_nil]
          omega
        · left
          obtain ⟨pc, hgc⟩ : ∃ pc, getCutIndex uw W s = some pc := by
            cases hgc2 : getCutIndex uw W s with
            | none =>
              rw [drainStep, hgc2] at hstep
              exact Option.noConfusion hstep
            | some pc => exact ⟨pc, rfl⟩
          have ht : stripStr (s.drop pc.2) = t := by
            rw [drainStep, hgc] at hstep
            injection hstep
          rw [← ht]
          exact stripStr_not_allSpace _ (by rw [ht]; exact hte)
      have hrec : drainRec uw W t.length t = some [] :=
        ih t (by omega) hgt
      have hslen : 0 < s.length := List.length_pos.mpr hse
      have hsplit : s.length = (s.length - 1) + 1 := by omega
      rw [hsplit, drainRec, if_neg hse, hstep]
      exact drainRec_fuel_mono (s.length - 1) t.length t (by omega) hrec

/-- Reduction of a Bool-conditioned if whose condition is literally true. -/
theorem ite_beq_true {A : Type} {a b : A} :
    (if (true : Bool) = true then a else b) = a := rfl

/-- Reduction of a Bool-conditioned if whose condition is literally false. -/
theorem ite_beq_false {A : Type} {a b : A} :
    (if (false : Bool) = true then a else b) = b := rfl

/-- Equivalence of the implementation's word walk (`nextCutGo`) with the
spec's word walk (`specWalkGo`), generalized over the loop state.  The
invariant `W < pl + sep + joinPL ws` says the joined width of the remaining
words (plus what was accumulated) still exceeds the budget, which is exactly
the situation in which `_next_cut` is invoked and never reaches its
fall-through return. -/
theorem walk_eq {uw : Char → Nat} {W : Nat} (huw : ∀ c, 1 ≤ uw c) :
    ∀ (ws : List (List Char)) (pl ci i : Nat),
      ((i = 0 ∧ pl = 0 ∧ ci = 0) ∨ (i ≠ 0 ∧ 1 ≤ ci)) →
      (∀ w ∈ ws, w ≠ []) →
      (W < pl + (if i = 0 then 0 else 1) + joinPL uw ws) →
      ws ≠ [] →
      nextCutGo uw W pl ci i ws = specWalkGo uw W pl ci (i == 0) ws := by
  intro ws
  induction ws with
  | nil => intro pl ci i _ _ _ hne; exact absurd rfl hne
  | cons w rest ih =>
    intro pl ci i hstate hwords hinv _
    have hw0 : w ≠ [] := hwords w (List.mem_cons_self w rest)
    have hwlen : 0 < w.length := List.length_pos.mpr hw0
    cases rest with
    | nil =>
      rw [nextCutGo, specWalkGo]
      rcases hstate with ⟨hi, hpl, hci⟩ | ⟨hi, hci⟩
      · subst hi; subst hpl; subst hci
        rw [joinPL] at hinv
        rw [if_pos rfl] at hinv
        have hbeq : ((0 : Nat) == 0) = true := rfl
        rw [hbeq, ite_beq_true, ite_beq_true]
        have htr : W ≤ printedLen uw w + 0 := by omega
        rw [if_pos htr, if_pos rfl]
        have hsp : W < 0 + 0 + printedLen uw w := by omega
        rw [if_pos hsp]
        rw [wordCut, specCharWalk, specCharWalkGo_eq_wordCutGo]
      · have hbeq : (i == 0) = false := by simp [hi]
        rw [hbeq, ite_beq_false, ite_beq_false]
        rw [joinPL] at hinv
        rw [if_neg hi] at hinv
        have htr : W ≤ printedLen uw w + pl := by omega
        have hsp : W < pl + 1 + printedLen uw w := by omega
        rw [if_pos htr, if_neg (by omega : ¬ ci = 0)]
        rw [if_pos hsp]
    | cons v r2 =>
      have hjcons : joinPL uw (w :: v :: r2) =
          printedLen uw w + 1 + joinPL uw (v :: r2) := rfl
      rw [hjcons] at hinv
      by_cases htr : W ≤ printedLen uw w + pl
      · rw [nextCutGo, if_pos htr, specWalkGo]
        rcases hstate with ⟨hi, hpl, hci⟩ | ⟨hi, hci⟩
        · subst hi; subst hpl; subst hci
          rw [if_pos rfl]
          have hbeq : ((0 : Nat) == 0) = true := rfl
          rw [hbeq, ite_beq_true, ite_beq_true]
          by_cases hlt : W < printedLen uw w
          · have hsp : W < 0 + 0 + printedLen uw w := by omega
            rw [if_pos hsp]
            rw [wordCut, specCharWalk, specCharWalkGo_eq_wordCutGo]
          · -- the first word measures exactly W: both sides cut the whole
            -- first word
            have hsp : ¬ W < 0 + 0 + printedLen uw w := by omega
            rw [if_neg hsp]
            rw [specWalkGo, ite_beq_false]
            have hsp2 : W < 0 + 0 + printedLen uw w + 1 + printedLen uw v := by
              have hv : v ≠ [] := hwords v (by simp)
              have := printedLen_pos huw hv
              omega
            rw [if_pos hsp2, ite_beq_false]
            rw [wordCut, wordCutGo_exact huw hw0 (by omega)]
            have hWw : printedLen uw w = W := by omega
            rw [hWw]
            simp
        · have hbeq : (i == 0) = false := by simp [hi]
          rw [hbeq, ite_beq_false, ite_beq_false, if_neg (by omega : ¬ ci = 0)]
          have hsp : W < pl + 1 + printedLen uw w := by omega
          rw [if_pos hsp]
      · -- no trigger: both walks accumulate the word and continue
        rw [nextCutGo, if_neg htr, specWalkGo]
        rcases hstate with ⟨hi, hpl, hci⟩ | ⟨hi, hci⟩
        · subst hi; subst hpl; subst hci
          have hbeq : ((0 : Nat) == 0) = true := rfl
          rw [hbeq, ite_beq_true, ite_beq_true]
          have hsp : ¬ W < 0 + 0 + printedLen uw w := by omega
          rw [if_neg hsp]
          rw [if_pos rfl]
          have hfalse : ((0 + 1 : Nat) == 0) = false := rfl
          rw [← hfalse]
          have e1 : 0 + 0 + printedLen uw w = 0 + printedLen uw w + 0 := by omega
          have e2 : (0 : Nat) + 0 + w.length = 0 + w.length + 0 := by omega
          rw [e1, e2]
          exact ih (0 + printedLen uw w + 0) (0 + w.length + 0) (0 + 1)
            (Or.inr ⟨by omega, by omega⟩)
            (fun x hx => hwords x (List.mem_cons_of_mem w hx))
            (by
              rw [if_neg (by omega : ¬ 0 + 1 = 0)]
              rw [if_pos rfl] at hinv
              omega)
            (List.cons_ne_nil v r2)
        · have hbeq : (i == 0) = false := by simp [hi]
          rw [hbeq, ite_beq_false, ite_beq_false]
          rw [if_neg (by omega : ¬ W < pl + 1 + printedLen uw w)]
          rw [if_neg hi]
          have hfalse : ((i + 1 : Nat) == 0) = false := by simp
          rw [← hfalse]
          have e1 : pl + 1 + printedLen uw w = pl + printedLen uw w + 1 := by omega
          have e2 : ci + 1 + w.length = ci + w.length + 1 := by omega
          rw [e1, e2]
          exact ih (pl + printedLen uw w + 1) (ci + w.length + 1) (i + 1)
            (Or.inr ⟨by omega, by omega⟩)
            (fun x hx => hwords x (List.mem_cons_of_mem w hx))
            (by
              rw [if_neg (by omega : ¬ i + 1 = 0)]
              rw [if_neg hi] at hinv
              omega)
            (List.cons_ne_nil v r2)

end CutterLemmas

section CutterClaims

/-- Claim C1, amended.  The original claim — `charCount ≥ 1` for every
non-empty `text` and every `maxWidth ≥ 1` — fails on the code: a forced line
break at offset 0 is returned as a zero-length cut, and a single word
narrower than the budget padded by whitespace beyond the budget falls
through the word walk with `len(" ".join(words[:0])) = 0`.  Amended: the cut
consumes at least one character whenever the text is non-empty, the width is
at least 1, the text does not begin with a forced line break, and the text
either fits the budget, splits into at least two words, or its first word
alone measures at least `maxWidth`. -/
theorem claim_C1 (uw : Char → Nat) (W : Nat) (s : List Char)
    (hW : 1 ≤ W) (hs : s ≠ [])
    (hhd : s.head? ≠ some '\n')
    (hcase : 2 ≤ (splitWords s).length ∨ printedLen uw s ≤ W ∨
      W ≤ printedLen uw ((splitWords s).headD [])) :
    ∃ p, getCutIndex uw W s = some p ∧ 1 ≤ p.2 := by
  have hslen : 0 < s.length := List.length_pos.mpr hs
  have hover_case : W < printedLen uw s →
      (∀ idx, findNLIdx s = some idx → W < idx) →
      ∃ p, getCutIndex uw W s = some p ∧ 1 ≤ p.2 := by
    intro hover hnlg
    have hcase2 : 2 ≤ (splitWords s).length ∨
        W ≤ printedLen uw ((splitWords s).headD []) := by
      rcases hcase with h | h | h
      · exact Or.inl h
      · omega
      · exact Or.inr h
    obtain ⟨p, hp, hp2⟩ := nextCut_top_pos hW hcase2
    exact ⟨p, by rw [getCutIndex_over hover hnlg]; exact hp, hp2⟩
  cases s with
  | nil => exact absurd rfl hs
  | cons c cs =>
    have hc : c ≠ '\n' := by
      intro he
      subst he
      simp at hhd
    cases hnl : findNLIdx (c :: cs) with
    | some idx =>
      have hpos : 1 ≤ idx := findNLIdx_pos_of_head hc hnl
      by_cases hidx : idx ≤ W
      · rw [getCutIndex_rule1 hnl hidx]
        refine ⟨_, rfl, ?_⟩
        have hlt := findNLIdx_lt_length hnl
        simp only [List.length_take]
        omega
      · by_cases hfit : printedLen uw (c :: cs) ≤ W
        · rw [getCutIndex_fit (fun i hi => by rw [hnl] at hi; cases hi; omega) hfit]
          exact ⟨_, rfl, by simp⟩
        · exact hover_case (by omega)
            (fun i hi => by rw [hnl] at hi; cases hi; omega)
    | none =>
      by_cases hfit : printedLen uw (c :: cs) ≤ W
      · rw [getCutIndex_fit (fun i hi => by rw [hnl] at hi; cases hi) hfit]
        exact ⟨_, rfl, by simp⟩
      · exact hover_case (by omega)
          (fun i hi => by rw [hnl] at hi; cases hi)

/-- Witness for C1: the word `AB` with column width 1 (first word at least
as wide as the budget) is cut with `charCount = 1 ≥ 1`. -/
theorem claim_C1_witness :
    ∃ p, getCutIndex uw1 1 ['A', 'B'] = some p ∧ 1 ≤ p.2 :=
  claim_C1 uw1 1 ['A', 'B'] (by decide) (by decide) (by decide) (by decide)

/-- Counterexample to C1 as stated: the non-empty string beginning with a
forced line break, at column width `1 ≥ 1`, is cut with `charCount = 0`. -/
theorem claim_C1_counterexample :
    ('\n' :: ['X'] : List Char) ≠ [] ∧ (1 : Nat) ≤ 1 ∧
    getCutIndex uw1 1 ('\n' :: ['X']) = some (0, 0) ∧ (0 : Nat) < 1 := by
  refine ⟨by decide, by decide, by decide, by decide⟩

/-- Claim C2, amended.  When the string has no forced break within the
budget, measures over the budget, and the whitespace-joined words also
measure over the budget, the cutter behaves exactly like the spec's word
walk (`specCut`): walk words left to right, stop before the word that would
exceed `maxWidth`, return the joined prefix, and fall back to a
per-character walk when the very first word alone exceeds the budget.  The
original claim omitted the joined-width proviso: when extra whitespace
alone pushes the measured width over the budget while the joined words fit,
the loop falls through and the code instead returns the full accumulated
width paired with the character length of the joined prefix *excluding the
final word* (see the counterexample). -/
theorem claim_C2 (uw : Char → Nat) (W : Nat) (s : List Char)
    (huw : ∀ c, 1 ≤ uw c)
    (hnl : noNLWithin W s = true)
    (hover : W < printedLen uw s)
    (hjoin : W < joinPL uw (splitWords s)) :
    getCutIndex uw W s = specCut uw W s := by
  have hnlg : ∀ idx, findNLIdx s = some idx → W < idx := by
    intro idx hidx
    unfold noNLWithin at hnl
    rw [hidx] at hnl
    exact of_decide_eq_true hnl
  rw [getCutIndex_over hover hnlg, nextCut, specCut]
  cases hws : splitWords s with
  | nil =>
    exfalso
    rw [hws] at hjoin
    rw [joinPL] at hjoin
    omega
  | cons w rest =>
    have h00 : ((0 : Nat) == 0) = true := rfl
    rw [← h00]
    apply walk_eq huw
    · exact Or.inl ⟨rfl, rfl, rfl⟩
    · intro x hx
      exact splitWords_word_ne_nil s x (hws ▸ hx)
    · rw [if_pos rfl]
      rw [hws] at hjoin
      omega
    · exact List.cons_ne_nil w rest

/-- Witness for C2: the spec's worked example.  At width 10 the cutter and
the spec walk agree on `"Team Standup Meeting"` (cut `("Team", 4)`), and the
subsequent cuts of the example chain produce `("Standup", 7)` and the whole
remainder `("Meeting", 7)`. -/
theorem claim_C2_witness :
    getCutIndex uw1 10 teamChars = specCut uw1 10 teamChars ∧
    getCutIndex uw1 10 teamChars = some (4, 4) ∧
    getCutIndex uw1 10
      ['S', 't', 'a', 'n', 'd', 'u', 'p', ' ', 'M', 'e', 'e', 't', 'i', 'n', 'g']
      = some (7, 7) ∧
    getCutIndex uw1 10 ['M', 'e', 'e', 't', 'i', 'n', 'g'] = some (7, 7) :=
  ⟨claim_C2 uw1 10 teamChars (fun _ => Nat.le_refl 1) (by decide) (by decide)
      (by decide),
    by decide, by decide, by decide⟩

/-- Counterexample to C2 as stated: on `"AB  CD"` at width 5 (double space:
the string measures 6 > 5 but the joined words measure exactly 5) no word
prefix exceeds the budget, the walk falls through, and the code returns
`(5, 2)` — the full accumulated width but only the first word's character
count — where the claim's described walk returns `(5, 5)`. -/
theorem claim_C2_counterexample :
    getCutIndex uw1 5 ['A', 'B', ' ', ' ', 'C', 'D'] = some (5, 2) ∧
    specCut uw1 5 ['A', 'B', ' ', ' ', 'C', 'D'] = some (5, 5) ∧
    getCutIndex uw1 5 ['A', 'B', ' ', ' ', 'C', 'D'] ≠
      specCut uw1 5 ['A', 'B', ' ', ' ', 'C', 'D'] := by
  refine ⟨by decide, by decide, by decide⟩

/-- Claim C8, amended.  Repeated cut → slice-past-cut → strip drains any
string to empty within `len(text)` iterations, provided the string contains
at least one non-whitespace character or fits the column budget.  The
original claim quantified over *every* string: it fails on all-whitespace
strings wider than the budget, where the word walk's word list is empty and
Python raises `NameError` (the drain loop crashes rather than terminating;
see the counterexample).  Renderer bucket lines always contain their
newline prefix and are trimmed before requeueing, so they satisfy the
proviso. -/
theorem claim_C8 (uw : Char → Nat) (W : Nat) (s : List Char)
    (hgood : s.all isSpace = false ∨ printedLen uw s ≤ W) :
    drainRec uw W s.length s = some [] :=
  drain_terminates s.length s (Nat.le_refl _) hgood

/-- Witness for C8: the spec's example line drains to empty within its
20-character budget of iterations at column width 10. -/
theorem claim_C8_witness :
    drainRec uw1 10 teamChars.length teamChars = some [] :=
  claim_C8 uw1 10 teamChars (by decide)

/-- Counterexample to C8 as stated: the all-whitespace string of two spaces
at column width 1 measures 2 > 1, `str.split()` yields no words, and the
cutter crashes — the drain never reaches the empty string. -/
theorem claim_C8_counterexample :
    drainRec uw1 1 ([' ', ' '] : List Char).length [' ', ' '] = none ∧
    drainRec uw1 1 ([' ', ' '] : List Char).length [' ', ' '] ≠ some [] := by
  refine ⟨by decide, by decide⟩

end CutterClaims

section BucketizerLemmas

theorem appendAt_length :
    ∀ (bs : List (List EventTitle)) (i : Nat) (x : EventTitle),
      (appendAt bs i x).length = bs.length := by
  intro bs
  induction bs with
  | nil => intro i x; cases i <;> rfl
  | cons b rest ih =>
    intro i x
    cases i with
    | zero => rfl
    | succ m => simp only [appendAt, List.length_cons, ih]

theorem appendAt_getQ :
    ∀ (bs : List (List EventTitle)) (i : Nat) (x : EventTitle) (j : Nat),
      (appendAt bs i x).get? j =
        if j = i then (bs.get? j).map (fun b => b ++ [x]) else bs.get? j := by
  intro bs
  induction bs with
  | nil =>
    intro i x j
    cases i <;> simp [appendAt]
  | cons b rest ih =>
    intro i x j
    cases i with
    | zero =>
      cases j with
      | zero => simp [appendAt]
      | succ k => simp [appendAt]
    | succ m =>
      cases j with
      | zero => simp [appendAt]
      | succ k =>
        simp only [appendAt, List.get?_cons_succ]
        rw [ih m x k]
        by_cases hk : k = m
        · rw [if_pos hk, if_pos (by omega)]
        · rw [if_neg hk, if_neg (by omega)]

theorem mem_appendAt :
    ∀ (bs : List (List EventTitle)) (i : Nat) (x : EventTitle) (b : List EventTitle),
      b ∈ appendAt bs i x → b ∈ bs ∨ ∃ b0 ∈ bs, b = b0 ++ [x] := by
  intro bs
  induction bs with
  | nil =>
    intro i x b hb
    cases i <;> simp [appendAt] at hb
  | cons b0 rest ih =>
    intro i x b hb
    cases i with
    | zero =>
      rcases List.mem_cons.mp hb with h | h
      · exact Or.inr ⟨b0, List.mem_cons_self _ _, h⟩
      · exact Or.inl (List.mem_cons_of_mem _ h)
    | succ m =>
      rcases List.mem_cons.mp hb with h | h
      · exact Or.inl (h ▸ List.mem_cons_self _ _)
      · rcases ih m x b h with h2 | ⟨c, hc, hbc⟩
        · exact Or.inl (List.mem_cons_of_mem _ h2)
        · exact Or.inr ⟨c, List.mem_cons_of_mem _ hc, hbc⟩

theorem mem_rangeInclGo :
    ∀ (n a j : Nat), j ∈ rangeInclGo a n ↔ a ≤ j ∧ j < a + n := by
  intro n
  induction n with
  | zero => intro a j; simp [rangeInclGo]
  | succ n ih =>
    intro a j
    simp only [rangeInclGo, List.mem_cons, ih]
    omega

theorem foldl_appendAt_length :
    ∀ (l : List Nat) (bs : List (List EventTitle)) (x : EventTitle),
      (l.foldl (fun acc d => appendAt acc d x) bs).length = bs.length := by
  intro l
  induction l with
  | nil => intro bs x; rfl
  | cons d l ih =>
    intro bs x
    rw [List.foldl_cons, ih, appendAt_length]

theorem mem_line_foldl_appendAt :
    ∀ (l : List Nat) (bs : List (List EventTitle)) (x : EventTitle)
      (b : List EventTitle) (y : EventTitle),
      b ∈ l.foldl (fun acc d => appendAt acc d x) bs → y ∈ b →
      (∃ b0 ∈ bs, y ∈ b0) ∨ y = x := by
  intro l
  induction l with
  | nil =>
    intro bs x b y hb hy
    exact Or.inl ⟨b, hb, hy⟩
  | cons d l ih =>
    intro bs x b y hb hy
    rw [List.foldl_cons] at hb
    rcases ih _ x b y hb hy with ⟨b0, hb0, hyb0⟩ | h
    · rcases mem_appendAt bs d x b0 hb0 with h2 | ⟨c, hc, hbc⟩
      · exact Or.inl ⟨b0, h2, hyb0⟩
      · subst hbc
        rcases List.mem_append.mp hyb0 with h3 | h3
        · exact Or.inl ⟨c, hc, h3⟩
        · exact Or.inr (by simpa using h3)
    · exact Or.inr h

theorem foldl_appendAt_getQ :
    ∀ (n a : Nat) (bs : List (List EventTitle)) (x : EventTitle) (j : Nat),
      ((rangeInclGo a n).foldl (fun acc d => appendAt acc d x) bs).get? j =
        if a ≤ j ∧ j < a + n then (bs.get? j).map (fun b => b ++ [x])
        else bs.get? j := by
  intro n
  induction n with
  | zero =>
    intro a bs x j
    rw [rangeInclGo]
    simp only [List.foldl_nil]
    rw [if_neg (by omega)]
  | succ n ih =>
    intro a bs x j
    rw [rangeInclGo]
    simp only [List.foldl_cons]
    rw [ih (a + 1) (appendAt bs a x) x j, appendAt_getQ bs a x j]
    by_cases hj : j = a
    · subst hj
      rw [if_neg (by omega), if_pos rfl, if_pos (by omega)]
    · rw [if_neg hj]
      by_cases hr : a + 1 ≤ j ∧ j < a + 1 + n
      · rw [if_pos hr, if_pos (by omega)]
      · rw [if_neg hr, if_neg (by omega)]

theorem appendRange_getQ (bs : List (List EventTitle)) (a b : Nat)
    (x : EventTitle) (j : Nat) :
    (appendRange bs a b x).get? j =
      if a ≤ j ∧ j ≤ b then (bs.get? j).map (fun bk => bk ++ [x])
      else bs.get? j := by
  rw [appendRange, rangeIncl, foldl_appendAt_getQ]
  by_cases hab : a ≤ b
  · by_cases hj : a ≤ j ∧ j ≤ b
    · rw [if_pos (by omega), if_pos hj]
    · rw [if_neg (by omega), if_neg hj]
  · rw [if_neg (by omega), if_neg (by omega)]

theorem appendRange_length (bs : List (List EventTitle)) (a b : Nat)
    (x : EventTitle) : (appendRange bs a b x).length = bs.length :=
  foldl_appendAt_length _ bs x

theorem replicate_getQ {A : Type} (x : A) :
    ∀ (n j : Nat), j < n → (List.replicate n x).get? j = some x := by
  intro n
  induction n with
  | zero => intro j hj; omega
  | succ n ih =>
    intro j hj
    cases j with
    | zero => rfl
    | succ k =>
      rw [List.replicate_succ]
      simp only [List.get?_cons_succ]
      exact ih k (by omega)

theorem markerStep_false (opts : Options) (now : Int) (ev : Event)
    (daynum : Nat) (st : WState) :
    markerStep opts now false ev daynum st = (st, false) := by
  rw [markerStep]
  simp

theorem markerStep_buckets_length (opts : Options) (now : Int) (nowInWk : Bool)
    (ev : Event) (daynum : Nat) (st : WState) :
    (markerStep opts now nowInWk ev daynum st).1.buckets.length =
      st.buckets.length := by
  rw [markerStep]
  split
  · split
    · simp [appendAt_length]
    · split
      · rfl
      · rfl
  · rfl

theorem markerStep_cnt (opts : Options) (now : Int) (nowInWk : Bool)
    (ev : Event) (daynum : Nat) (st : WState) :
    ((markerStep opts now nowInWk ev daynum st).1.cnt = st.cnt ∧
      (markerStep opts now nowInWk ev daynum st).1.printed = st.printed) ∨
    ((markerStep opts now nowInWk ev daynum st).1.cnt = st.cnt + 1 ∧
      st.printed = false ∧
      (markerStep opts now nowInWk ev daynum st).1.printed = true) := by
  rw [markerStep]
  split
  · rename_i hg
    simp only [Bool.and_eq_true, Bool.not_eq_true'] at hg
    split
    · exact Or.inr ⟨rfl, hg.2, rfl⟩
    · split
      · exact Or.inr ⟨rfl, hg.2, rfl⟩
      · exact Or.inl ⟨rfl, rfl⟩
  · exact Or.inl ⟨rfl, rfl⟩

theorem markerStep_line (opts : Options) (now : Int) (nowInWk : Bool)
    (ev : Event) (daynum : Nat) (st : WState)
    (b : List EventTitle) (y : EventTitle)
    (hb : b ∈ (markerStep opts now nowInWk ev daynum st).1.buckets)
    (hy : y ∈ b) :
    (∃ b0 ∈ st.buckets, y ∈ b0) ∨ ∃ r, y.title = '\n' :: r := by
  rw [markerStep] at hb
  split at hb
  · split at hb
    · simp only at hb
      rcases mem_appendAt _ _ _ _ hb with h | ⟨c, hc, hbc⟩
      · exact Or.inl ⟨b, h, hy⟩
      · subst hbc
        rcases List.mem_append.mp hy with h2 | h2
        · exact Or.inl ⟨c, hc, h2⟩
        · refine Or.inr ⟨List.replicate opts.cal_width '-', ?_⟩
          have : y = ⟨'\n' :: List.replicate opts.cal_width '-',
              opts.color_now_marker⟩ := by simpa using h2
          rw [this]
    · split at hb
      · exact Or.inl ⟨b, hb, hy⟩
      · exact Or.inl ⟨b, hb, hy⟩
  · exact Or.inl ⟨b, hb, hy⟩

theorem appendTitleLines_length (opts : Options) (fmt : Event → Bool → List Char)
    (endDt : Int) (ev : Event) (color : Color) (daynum : Nat)
    (bs : List (List EventTitle)) :
    (appendTitleLines opts fmt endDt ev color daynum bs).length = bs.length := by
  rw [appendTitleLines]
  split
  · exact appendRange_length _ _ _ _
  · exact appendAt_length _ _ _

theorem appendTitleLines_line (opts : Options) (fmt : Event → Bool → List Char)
    (endDt : Int) (ev : Event) (color : Color) (daynum : Nat)
    (bs : List (List EventTitle)) (b : List EventTitle) (y : EventTitle)
    (hb : b ∈ appendTitleLines opts fmt endDt ev color daynum bs)
    (hy : y ∈ b) :
    (∃ b0 ∈ bs, y ∈ b0) ∨ ∃ r, y.title = '\n' :: r := by
  rw [appendTitleLines] at hb
  split at hb
  · rcases mem_line_foldl_appendAt _ _ _ _ _ hb hy with h | h
    · exact Or.inl h
    · exact Or.inr ⟨fmt ev (is_all_day ev), by rw [h]⟩
  · rcases mem_appendAt _ _ _ _ hb with h | ⟨c, hc, hbc⟩
    · exact Or.inl ⟨b, h, hy⟩
    · subst hbc
      rcases List.mem_append.mp hy with h2 | h2
      · exact Or.inl ⟨c, hc, h2⟩
      · refine Or.inr ⟨fmt ev (is_all_day ev), ?_⟩
        have : y = ⟨'\n' :: fmt ev (is_all_day ev), color⟩ := by simpa using h2
        rw [this]

theorem processEvent_buckets_length (opts : Options)
    (fmt : Event → Bool → List Char) (colf : Event → Bool → Color)
    (startDt endDt now : Int) (nowInWk : Bool) (st : WState) (ev : Event) :
    (processEvent opts fmt colf startDt endDt now nowInWk st ev).buckets.length
      = st.buckets.length := by
  rw [processEvent]
  split
  · simp only
    rw [appendTitleLines_length, markerStep_buckets_length]
  · rfl

theorem processEvent_cnt (opts : Options) (fmt : Event → Bool → List Char)
    (colf : Event → Bool → Color) (startDt endDt now : Int) (nowInWk : Bool)
    (st : WState) (ev : Event) :
    ((processEvent opts fmt colf startDt endDt now nowInWk st ev).cnt = st.cnt ∧
      (processEvent opts fmt colf startDt endDt now nowInWk st ev).printed
        = st.printed) ∨
    ((processEvent opts fmt colf startDt endDt now nowInWk st ev).cnt
        = st.cnt + 1 ∧
      st.printed = false ∧
      (processEvent opts fmt colf startDt endDt now nowInWk st ev).printed
        = true) := by
  rw [processEvent]
  split
  · simp only
    exact markerStep_cnt opts now nowInWk ev _ st
  · exact Or.inl ⟨rfl, rfl⟩

theorem processEvent_nowInWk_false (opts : Options)
    (fmt : Event → Bool → List Char) (colf : Event → Bool → Color)
    (startDt endDt now : Int) (st : WState) (ev : Event) :
    (processEvent opts fmt colf startDt endDt now false st ev).cnt = st.cnt := by
  rw [processEvent]
  split
  · simp only [markerStep_false]
  · rfl

theorem processEvent_line (opts : Options) (fmt : Event → Bool → List Char)
    (colf : Event → Bool → Color) (startDt endDt now : Int) (nowInWk : Bool)
    (st : WState) (ev : Event) (b : List EventTitle) (y : EventTitle)
    (hb : b ∈ (processEvent opts fmt colf startDt endDt now nowInWk st ev).buckets)
    (hy : y ∈ b) :
    (∃ b0 ∈ st.buckets, y ∈ b0) ∨ ∃ r, y.title = '\n' :: r := by
  rw [processEvent] at hb
  split at hb
  · simp only at hb
    rcases appendTitleLines_line _ _ _ _ _ _ _ _ _ hb hy with ⟨b0, hb0, hyb0⟩ | h
    · exact markerStep_line opts now nowInWk ev _ st b0 y hb0 hyb0
    · exact Or.inr h
  · exact Or.inl ⟨b, hb, hy⟩

theorem foldl_processEvent_length (opts : Options)
    (fmt : Event → Bool → List Char) (colf : Event → Bool → Color)
    (startDt endDt now : Int) (nowInWk : Bool) :
    ∀ (events : List Event) (st : WState),
      ((events.foldl (processEvent opts fmt colf startDt endDt now nowInWk)
        st)).buckets.length = st.buckets.length := by
  intro events
  induction events with
  | nil => intro st; rfl
  | cons ev evs ih =>
    intro st
    rw [List.foldl_cons, ih, processEvent_buckets_length]

theorem getWeekEvents_length (opts : Options) (fmt : Event → Bool → List Char)
    (colf : Event → Bool → Color) (startDt endDt now : Int)
    (events : List Event) :
    (getWeekEvents opts fmt colf startDt endDt now events).length = 7 := by
  rw [getWeekEvents, getWeekEventsFull, foldl_processEvent_length]
  rfl

theorem foldl_processEvent_cnt (opts : Options)
    (fmt : Event → Bool → List Char) (colf : Event → Bool → Color)
    (startDt endDt now : Int) (nowInWk : Bool) :
    ∀ (events : List Event) (st : WState),
      (st.printed = false → st.cnt = 0) → st.cnt ≤ 1 →
      let st2 := events.foldl
        (processEvent opts fmt colf startDt endDt now nowInWk) st
      (st2.printed = false → st2.cnt = 0) ∧ st2.cnt ≤ 1 := by
  intro events
  induction events with
  | nil => intro st h1 h2; exact ⟨h1, h2⟩
  | cons ev evs ih =>
    intro st h1 h2
    rw [List.foldl_cons]
    apply ih
    · rcases processEvent_cnt opts fmt colf startDt endDt now nowInWk st ev
        with ⟨hc, hp⟩ | ⟨hc, hp0, hp1⟩
      · intro hpf; rw [hc]; exact h1 (hp ▸ hpf)
      · intro hpf; rw [hp1] at hpf; exact Bool.noConfusion hpf
    · rcases processEvent_cnt opts fmt colf startDt endDt now nowInWk st ev
        with ⟨hc, _⟩ | ⟨hc, hp0, _⟩
      · omega
      · have := h1 hp0
        omega

theorem weekMarkerCount_le_one (opts : Options)
    (fmt : Event → Bool → List Char) (colf : Event → Bool → Color)
    (startDt endDt now : Int) (events : List Event) :
    weekMarkerCount opts fmt colf startDt endDt now events ≤ 1 := by
  rw [weekMarkerCount, getWeekEventsFull]
  exact (foldl_processEvent_cnt opts fmt colf startDt endDt now _ events
    ⟨List.replicate 7 [], false, 0⟩ (fun _ => rfl) (Nat.zero_le 1)).2

theorem foldl_processEvent_cnt_false (opts : Options)
    (fmt : Event → Bool → List Char) (colf : Event → Bool → Color)
    (startDt endDt now : Int) :
    ∀ (events : List Event) (st : WState),
      (events.foldl (processEvent opts fmt colf startDt endDt now false)
        st).cnt = st.cnt := by
  intro events
  induction events with
  | nil => intro st; rfl
  | cons ev evs ih =>
    intro st
    rw [List.foldl_cons, ih, processEvent_nowInWk_false]

theorem weekMarkerCount_zero (opts : Options)
    (fmt : Event → Bool → List Char) (colf : Event → Bool → Color)
    (startDt endDt now : Int) (events : List Event)
    (h : nowInWeek startDt endDt now = false) :
    weekMarkerCount opts fmt colf startDt endDt now events = 0 := by
  rw [weekMarkerCount, getWeekEventsFull, h, foldl_processEvent_cnt_false]

theorem foldl_processEvent_line (opts : Options)
    (fmt : Event → Bool → List Char) (colf : Event → Bool → Color)
    (startDt endDt now : Int) (nowInWk : Bool) :
    ∀ (events : List Event) (st : WState) (b : List EventTitle) (y : EventTitle),
      (∀ b0 ∈ st.buckets, ∀ y0 ∈ b0, ∃ r, EventTitle.title y0 = '\n' :: r) →
      b ∈ (events.foldl (processEvent opts fmt colf startDt endDt now nowInWk)
        st).buckets →
      y ∈ b → ∃ r, y.title = '\n' :: r := by
  intro events
  induction events with
  | nil =>
    intro st b y hinv hb hy
    exact hinv b hb y hy
  | cons ev evs ih =>
    intro st b y hinv hb hy
    rw [List.foldl_cons] at hb
    refine ih _ b y ?_ hb hy
    intro b0 hb0 y0 hy0
    rcases processEvent_line opts fmt colf startDt endDt now nowInWk st ev
      b0 y0 hb0 hy0 with ⟨b1, hb1, hy1⟩ | h
    · exact hinv b1 hb1 y0 hy1
    · exact h

theorem nowInWeek_iff (a b t : Int) :
    nowInWeek a b t = true ↔ a ≤ t ∧ t ≤ b := by
  rw [nowInWeek]
  simp only [Bool.not_eq_true', Bool.or_eq_false_iff, decide_eq_false_iff_not]
  omega

theorem sum_le_one_of_unique :
    ∀ (count : Nat) (f : Nat → Nat),
      (∀ k, k < count → f k ≤ 1) →
      (∀ k1 k2, k1 < count → k2 < count → 0 < f k1 → 0 < f k2 → k1 = k2) →
      ((List.range count).map f).sum ≤ 1 := by
  intro count
  induction count with
  | zero => intro f _ _; simp
  | succ n ih =>
    intro f hle huniq
    rw [List.range_succ, List.map_append, List.sum_append]
    simp only [List.map_cons, List.map_nil, List.sum_cons, List.sum_nil]
    by_cases hn : 0 < f n
    · have hzero : ((List.range n).map f).sum = 0 := by
        apply List.sum_eq_zero
        intro x hx
        rw [List.mem_map] at hx
        obtain ⟨k, hk, hfk⟩ := hx
        rw [List.mem_range] at hk
        by_contra hxne
        have hkpos : 0 < f k := by omega
        have := huniq k n (by omega) (by omega) hkpos hn
        omega
      rw [hzero]
      have := hle n (by omega)
      omega
    · have hfn : f n = 0 := by omega
      rw [hfn]
      have := ih f (fun k hk => hle k (by omega))
        (fun k1 k2 h1 h2 p1 p2 => huniq k1 k2 (by omega) (by omega) p1 p2)
      omega

theorem window_unique {S : Int} {count : Nat} {now : Int}
    (hb : ∀ k : Nat, k ≤ count → now ≠ S + 10080 * k) :
    ∀ k1 k2 : Nat, k1 < count → k2 < count →
      nowInWeek (S + 10080 * (k1 : Int)) (S + 10080 * ((k1 : Int) + 1)) now
        = true →
      nowInWeek (S + 10080 * (k2 : Int)) (S + 10080 * ((k2 : Int) + 1)) now
        = true →
      k1 = k2 := by
  intro k1 k2 h1 h2 hw1 hw2
  rw [nowInWeek_iff] at hw1 hw2
  by_contra hne
  rcases Nat.lt_or_ge k1 k2 with h | h
  · have heq : now = S + 10080 * (k2 : Int) := by omega
    exact hb k2 (by omega) heq
  · have heq : now = S + 10080 * (k1 : Int) := by omega
    exact hb k1 (by omega) heq

end BucketizerLemmas

section BucketizerClaims

/-- Claim C4, amended.  Within one week window the now-marker logic fires at
most once: the `now_marker_printed` flag is set by whichever branch fires
first (divider insertion, or recoloring of a non-all-day event) and blocks
all further marker logic, so the ghost count of marker actions is at most 1
per window.  The original claim's "at most once per full render" is too
strong: the flag is reset for every week window, and when `now` lies
exactly on the shared boundary instant of two adjacent windows (both treat
it as in-week, since the in-week test is inclusive on both ends) a recolor
can fire in the earlier window and a divider in the later one — see the
counterexample.  Per render the bound holds whenever `now` is not exactly a
window boundary `S + k·7days`. -/
theorem claim_C4 :
    (∀ (opts : Options) (fmt : Event → Bool → List Char)
      (colf : Event → Bool → Color) (startDt endDt now : Int)
      (events : List Event),
      weekMarkerCount opts fmt colf startDt endDt now events ≤ 1) ∧
    (∀ (opts : Options) (fmt : Event → Bool → List Char)
      (colf : Event → Bool → Color) (S : Int) (count : Nat) (now : Int)
      (events : List Event),
      (∀ k : Nat, k ≤ count → now ≠ S + 10080 * k) →
      renderMarkerTotal opts fmt colf S count now events ≤ 1) := by
  constructor
  · exact weekMarkerCount_le_one
  · intro opts fmt colf S count now events hb
    simp only [renderMarkerTotal]
    apply sum_le_one_of_unique
    · intro k _
      exact weekMarkerCount_le_one _ _ _ _ _ _ _
    · intro k1 k2 h1 h2 p1 p2
      apply window_unique hb k1 k2 h1 h2
      · cases hnw : nowInWeek (S + 10080 * (k1 : Int))
            (S + 10080 * ((k1 : Int) + 1)) now with
        | false =>
          rw [weekMarkerCount_zero _ _ _ _ _ _ _ hnw] at p1
          omega
        | true => rfl
      · cases hnw : nowInWeek (S + 10080 * (k2 : Int))
            (S + 10080 * ((k2 : Int) + 1)) now with
        | false =>
          rw [weekMarkerCount_zero _ _ _ _ _ _ _ hnw] at p2
          omega
        | true => rfl

/-- Witness for C4: a two-week render with `now` strictly inside the first
week fires the marker at most once. -/
theorem claim_C4_witness :
    renderMarkerTotal ⟨true, true, 10, ['N'], false⟩ (fun _ _ => ['T'])
      (fun _ _ => ['c']) 0 2 500
      [⟨5000, 10080, false⟩, ⟨15000, 15060, false⟩] ≤ 1 :=
  claim_C4.2 ⟨true, true, 10, ['N'], false⟩ (fun _ _ => ['T'])
    (fun _ _ => ['c']) 0 2 500 [⟨5000, 10080, false⟩, ⟨15000, 15060, false⟩]
    (by intro k _ heq; omega)

/-- Counterexample to C4 as stated: `now` exactly at the boundary between
week 0 and week 1 of a two-week render.  Week 0 recolors the event ending
at the boundary; week 1 (fresh flag) inserts a divider ahead of its later
event: two marker actions in one full render. -/
theorem claim_C4_counterexample :
    renderMarkerTotal ⟨true, true, 10, ['N'], false⟩ (fun _ _ => ['T'])
      (fun _ _ => ['c']) 0 2 10080
      [⟨5000, 10080, false⟩, ⟨15000, 15060, false⟩] = 2 ∧
    ¬ renderMarkerTotal ⟨true, true, 10, ['N'], false⟩ (fun _ _ => ['T'])
      (fun _ _ => ['c']) 0 2 10080
      [⟨5000, 10080, false⟩, ⟨15000, 15060, false⟩] ≤ 1 := by
  refine ⟨by decide, by decide⟩

/-- Claim C6, amended.  `_get_week_events` always produces seven day
buckets (`[[] for _ in range(7)]`), regardless of weekend visibility; the
renderer drains only the first `days = 7 if cal_weekend else 5` of them.
So bucket count equals the visible day count exactly when weekends are
shown; with weekends hidden the bucketizer still produces 7 buckets while
only 5 columns are visible (the original claim's "5 buckets" is wrong —
see the counterexample). -/
theorem claim_C6 (opts : Options) (fmt : Event → Bool → List Char)
    (colf : Event → Bool → Color) (startDt endDt now : Int)
    (events : List Event) :
    (getWeekEvents opts fmt colf startDt endDt now events).length = 7 ∧
    (opts.cal_weekend = true →
      visibleDays opts =
        (getWeekEvents opts fmt colf startDt endDt now events).length) ∧
    (opts.cal_weekend = false → visibleDays opts = 5) := by
  refine ⟨getWeekEvents_length opts fmt colf startDt endDt now events, ?_, ?_⟩
  · intro h
    rw [visibleDays, if_pos h, getWeekEvents_length]
  · intro h
    rw [visibleDays, if_neg (by simp [h])]

/-- Witness for C6: with weekends shown the bucket count equals the visible
day count. -/
theorem claim_C6_witness :
    visibleDays ⟨true, true, 10, ['N'], false⟩ =
      (getWeekEvents ⟨true, true, 10, ['N'], false⟩ (fun _ _ => [])
        (fun _ _ => []) 0 10080 0 []).length :=
  (claim_C6 ⟨true, true, 10, ['N'], false⟩ (fun _ _ => []) (fun _ _ => [])
    0 10080 0 []).2.1 rfl

/-- Counterexample to C6 as stated: with weekends hidden the bucketizer
still produces 7 buckets while the visible day count is 5. -/
theorem claim_C6_counterexample :
    (getWeekEvents ⟨true, false, 10, ['N'], false⟩ (fun _ _ => [])
      (fun _ _ => []) 0 10080 0 []).length = 7 ∧
    visibleDays ⟨true, false, 10, ['N'], false⟩ = 5 ∧ (7 : Nat) ≠ 5 := by
  refine ⟨by decide, by decide, by decide⟩

/-- Claim C7: with a configured column width below 1, the checked renderer
entry fails with the configuration error and produces no per-week output
(it never begins rendering). -/
theorem claim_C7 (opts : Options) (fmt : Event → Bool → List Char)
    (colf : Event → Bool → Color) (S : Int) (count : Nat) (now : Int)
    (events : List Event) (h : opts.cal_width < 1) :
    checkedRender opts fmt colf S count now events = Except.error () := by
  rw [checkedRender, if_pos h]

/-- Witness for C7: width 0 yields the configuration error. -/
theorem claim_C7_witness :
    checkedRender ⟨true, true, 0, ['N'], false⟩ (fun _ _ => [])
      (fun _ _ => []) 0 1 0 [] = Except.error () :=
  claim_C7 ⟨true, true, 0, ['N'], false⟩ (fun _ _ => []) (fun _ _ => [])
    0 1 0 [] (by decide)

/-- Claim C10: every render line the bucketizer appends — titled event
lines and the now-marker divider alike — has text beginning with a newline
character; the first cut of such a line therefore returns character count 0
(and fitted width 0), and the Body cell emits a full-column-width blank
spacer. -/
theorem claim_C10 :
    (∀ (opts : Options) (fmt : Event → Bool → List Char)
      (colf : Event → Bool → Color) (startDt endDt now : Int)
      (events : List Event) (b : List EventTitle) (y : EventTitle),
      b ∈ getWeekEvents opts fmt colf startDt endDt now events → y ∈ b →
      ∃ r, y.title = '\n' :: r) ∧
    (∀ (uw : Char → Nat) (W : Nat) (rest : List Char),
      getCutIndex uw W ('\n' :: rest) = some (0, 0)) ∧
    (∀ (uw : Char → Nat) (W : Nat) (rest : List Char),
      drainCell uw W ('\n' :: rest) = some (List.replicate W ' ')) := by
  refine ⟨?_, ?_, ?_⟩
  · intro opts fmt colf startDt endDt now events b y hb hy
    rw [getWeekEvents, getWeekEventsFull] at hb
    refine foldl_processEvent_line opts fmt colf startDt endDt now _ events
      _ b y ?_ hb hy
    intro b0 hb0 y0 hy0
    have hb0e : b0 = [] := List.eq_of_mem_replicate hb0
    rw [hb0e] at hy0
    simp at hy0
  · intro uw W rest
    rw [getCutIndex_rule1 (show findNLIdx ('\n' :: rest) = some 0 from rfl)
      (Nat.zero_le W)]
    rfl
  · intro uw W rest
    have hgc : getCutIndex uw W ('\n' :: rest) = some (0, 0) := by
      rw [getCutIndex_rule1 (show findNLIdx ('\n' :: rest) = some 0 from rfl)
        (Nat.zero_le W)]
      rfl
    simp only [drainCell, hgc]
    simp

/-- Witness for C10: a concrete bucketized event line starts with a
newline, and a concrete newline-led line produces a blank 3-wide spacer
cell. -/
theorem claim_C10_witness :
    (∃ r, (EventTitle.mk ('\n' :: ['T']) ['c']).title = '\n' :: r) ∧
    drainCell uw1 3 ('\n' :: ['A']) = some (List.replicate 3 ' ') :=
  ⟨claim_C10.1 ⟨true, true, 4, ['N'], false⟩ (fun _ _ => ['T'])
      (fun _ _ => ['c']) 5760 (5760 + 10080) 0 [⟨6360, 6420, false⟩]
      [⟨'\n' :: ['T'], ['c']⟩] ⟨'\n' :: ['T'], ['c']⟩ (by decide) (by decide),
    claim_C10.2.2 uw1 3 ['A']⟩

end BucketizerClaims

section SingleEventLemmas

theorem dow_bounds (t : Int) : 0 ≤ dow t ∧ dow t < 7 :=
  ⟨Int.emod_nonneg _ (by norm_num), Int.emod_lt_of_pos _ (by norm_num)⟩

theorem calMonday_bounds (opts : Options) (d : Int) (hd : 0 ≤ d ∧ d < 7) :
    0 ≤ calMonday opts d ∧ calMonday opts d < 7 := by
  rw [calMonday]
  split
  · dsimp only
    split <;> omega
  · omega

theorem eventDayNum_lt (opts : Options) (ev : Event) :
    eventDayNum opts ev < 7 := by
  rw [eventDayNum]
  have h2 := calMonday_bounds opts _ (dow_bounds ev.s)
  omega

theorem endDayIdx_lt (opts : Options) (endDt : Int) (ev : Event) :
    endDayIdx opts endDt ev < 7 := by
  rw [endDayIdx]
  split
  · omega
  · have h2 := calMonday_bounds opts _ (dow_bounds (eventEndDate ev))
    omega

theorem startDayIdx_le_endDayIdx (opts : Options) (endDt : Int) (ev : Event) :
    startDayIdx opts endDt ev ≤ endDayIdx opts endDt ev := by
  rw [startDayIdx]
  split
  · omega
  · rename_i h
    simp only [decide_eq_true_eq] at h
    omega

theorem startDayIdx_lt (opts : Options) (endDt : Int) (ev : Event) :
    startDayIdx opts endDt ev < 7 := by
  have h1 := startDayIdx_le_endDayIdx opts endDt ev
  have h2 := endDayIdx_lt opts endDt ev
  omega

theorem qualifies_iff (startDt endDt : Int) (ev : Event) :
    qualifies startDt endDt ev = true ↔
      ((startDt ≤ ev.s ∧ ev.s < endDt) ∨
        (is_all_day ev = true ∧ ev.s < startDt ∧ startDt ≤ ev.e - 1440)) := by
  by_cases had : is_all_day ev = true
  · simp [qualifies, eventTimeInRange, eventSpansTime, eventEndDate, had]
  · simp [qualifies, eventTimeInRange, eventSpansTime, eventEndDate, had]

theorem nowInWeek_false_of_lt {startDt endDt now : Int} (h : now < startDt) :
    nowInWeek startDt endDt now = false := by
  simp [nowInWeek, h]

theorem processEvent_pos (opts : Options) (fmt : Event → Bool → List Char)
    (colf : Event → Bool → Color) (startDt endDt now : Int) (nowInWk : Bool)
    (st : WState) (ev : Event) (hq : qualifies startDt endDt ev = true) :
    processEvent opts fmt colf startDt endDt now nowInWk st ev =
      { (markerStep opts now nowInWk ev (eventDayNum opts ev) st).1 with
        buckets := appendTitleLines opts fmt endDt ev
          (eventColor opts colf
            (markerStep opts now nowInWk ev (eventDayNum opts ev) st).2 ev)
          (eventDayNum opts ev)
          (markerStep opts now nowInWk ev (eventDayNum opts ev) st).1.buckets } := by
  simp only [processEvent]
  rw [if_pos hq]

theorem processEvent_neg (opts : Options) (fmt : Event → Bool → List Char)
    (colf : Event → Bool → Color) (startDt endDt now : Int) (nowInWk : Bool)
    (st : WState) (ev : Event) (hq : qualifies startDt endDt ev = false) :
    processEvent opts fmt colf startDt endDt now nowInWk st ev = st := by
  simp only [processEvent]
  rw [if_neg (by simp [hq])]

theorem getQ_some_of_lt (l : List (List EventTitle)) (j : Nat)
    (h : j < l.length) : ∃ a, l.get? j = some a :=
  ⟨l.get ⟨j, h⟩, List.get?_eq_get h⟩

theorem appendTitleLines_exists_nonempty (opts : Options)
    (fmt : Event → Bool → List Char) (endDt : Int) (ev : Event)
    (color : Color) (daynum : Nat) (bs : List (List EventTitle))
    (hlen : bs.length = 7) (hday : daynum < 7) :
    ∃ b ∈ appendTitleLines opts fmt endDt ev color daynum bs, b ≠ [] := by
  rw [appendTitleLines]
  split
  · dsimp only
    have heI : endDayIdx opts endDt ev < 7 := endDayIdx_lt opts endDt ev
    by_cases hc : endDayIdx opts endDt ev < daynum
    · rw [if_pos (show decide (endDayIdx opts endDt ev < daynum) = true by
        simp [hc])]
      obtain ⟨bucket, hb⟩ := getQ_some_of_lt bs 0 (by omega)
      have hget := appendRange_getQ bs 0 (endDayIdx opts endDt ev)
        ⟨'\n' :: fmt ev (is_all_day ev), color⟩ 0
      rw [if_pos ⟨Nat.le_refl 0, Nat.zero_le _⟩, hb, Option.map_some'] at hget
      exact ⟨bucket ++ [⟨'\n' :: fmt ev (is_all_day ev), color⟩],
        List.get?_mem hget, by simp⟩
    · rw [if_neg (show ¬ decide (endDayIdx opts endDt ev < daynum) = true by
        simpa using hc)]
      obtain ⟨bucket, hb⟩ := getQ_some_of_lt bs daynum (by omega)
      have hget := appendRange_getQ bs daynum (endDayIdx opts endDt ev)
        ⟨'\n' :: fmt ev (is_all_day ev), color⟩ daynum
      rw [if_pos ⟨Nat.le_refl daynum, by omega⟩, hb, Option.map_some'] at hget
      exact ⟨bucket ++ [⟨'\n' :: fmt ev (is_all_day ev), color⟩],
        List.get?_mem hget, by simp⟩
  · obtain ⟨bucket, hb⟩ := getQ_some_of_lt bs daynum (by omega)
    have hget := appendAt_getQ bs daynum
      ⟨'\n' :: fmt ev (is_all_day ev), color⟩ daynum
    rw [if_pos rfl, hb, Option.map_some'] at hget
    exact ⟨bucket ++ [⟨'\n' :: fmt ev (is_all_day ev), color⟩],
      List.get?_mem hget, by simp⟩

end SingleEventLemmas

section SingleEventClaims

/-- Claim C3: a (single) event contributes render lines to some bucket of a
week window exactly when its start instant lies in the half-open range
`[window.start, window.end)`, or it is all-day and its span — with the end
instant reduced by one day, because all-day source end instants mean
midnight of the day after the last included day — overlaps the window
start. -/
theorem claim_C3 (opts : Options) (fmt : Event → Bool → List Char)
    (colf : Event → Bool → Color) (startDt endDt now : Int) (ev : Event) :
    (∃ b ∈ getWeekEvents opts fmt colf startDt endDt now [ev], b ≠ []) ↔
      ((startDt ≤ ev.s ∧ ev.s < endDt) ∨
        (is_all_day ev = true ∧ ev.s < startDt ∧ startDt ≤ ev.e - 1440)) := by
  rw [getWeekEvents, getWeekEventsFull]
  simp only [List.foldl_cons, List.foldl_nil]
  rw [← qualifies_iff]
  constructor
  · rintro ⟨b, hb, hbne⟩
    by_contra hq
    have hqf : qualifies startDt endDt ev = false := by
      cases hqv : qualifies startDt endDt ev with
      | false => rfl
      | true => exact absurd hqv hq
    rw [processEvent_neg _ _ _ _ _ _ _ _ _ hqf] at hb
    exact hbne (List.eq_of_mem_replicate hb)
  · intro hq
    rw [processEvent_pos _ _ _ _ _ _ _ _ _ hq]
    exact appendTitleLines_exists_nonempty opts fmt endDt ev _ _ _
      (by rw [markerStep_buckets_length]; rfl) (eventDayNum_lt opts ev)

/-- Claim C5: a qualifying all-day event whose adjusted span covers more
than one day gets exactly one titled render line in every bucket index of
the inclusive clipped range `startDayIdx .. endDayIdx` — the end index is
clipped to the last column (6) when the event ends after the window, and
the start index is clamped to 0 when it exceeds the end index — and no line
anywhere else (`now` is taken before the window so the now-marker does not
interfere). -/
theorem claim_C5 (opts : Options) (fmt : Event → Bool → List Char)
    (colf : Event → Bool → Color) (startDt endDt now : Int) (ev : Event)
    (h1 : is_all_day ev = true)
    (h2 : ev.s < ev.e - 1440)
    (h3 : qualifies startDt endDt ev = true)
    (h4 : now < startDt) :
    ∀ j : Nat, j < 7 →
      (getWeekEvents opts fmt colf startDt endDt now [ev]).get? j =
        some (if startDayIdx opts endDt ev ≤ j ∧ j ≤ endDayIdx opts endDt ev
          then [⟨'\n' :: fmt ev true, eventColor opts colf false ev⟩]
          else []) := by
  intro j hj
  have hadj : eventEndDate ev = ev.e - 1440 := by
    rw [eventEndDate, if_pos h1]
  rw [getWeekEvents, getWeekEventsFull]
  simp only [List.foldl_cons, List.foldl_nil]
  rw [nowInWeek_false_of_lt h4]
  rw [processEvent_pos _ _ _ _ _ _ _ _ _ h3]
  rw [markerStep_false]
  simp only [appendTitleLines]
  rw [if_pos (show (is_all_day ev && decide (ev.s < eventEndDate ev)) = true by
    rw [h1, hadj]
    simp [h2])]
  simp only [startDayIdx, endDayIdx]
  rw [appendRange_getQ]
  rw [replicate_getQ _ _ _ hj]
  rw [h1]
  by_cases hcond : (if decide ((if decide (endDt < eventEndDate ev) then 6
      else (calMonday opts (dow (eventEndDate ev))).toNat) < eventDayNum opts ev)
      then 0 else eventDayNum opts ev) ≤ j ∧
      j ≤ (if decide (endDt < eventEndDate ev) then 6
        else (calMonday opts (dow (eventEndDate ev))).toNat)
  · rw [if_pos hcond, if_pos hcond]
    rfl
  · rw [if_neg hcond, if_neg hcond]

/-- Claim C9: an event classified as not all-day contributes exactly one
render line, appended only to the bucket of its start day (whatever its end
instant), when its start lies in the window; and it is omitted entirely —
every bucket stays empty — when its start precedes the window start,
because only all-day events use the span-overlap membership test (`now` is
taken before the window so the now-marker does not interfere). -/
theorem claim_C9 (opts : Options) (fmt : Event → Bool → List Char)
    (colf : Event → Bool → Color) (startDt endDt now : Int) (ev : Event)
    (h1 : is_all_day ev = false)
    (h4 : now < startDt) :
    ((startDt ≤ ev.s ∧ ev.s < endDt) →
      ∀ j : Nat, j < 7 →
        (getWeekEvents opts fmt colf startDt endDt now [ev]).get? j =
          some (if j = eventDayNum opts ev
            then [⟨'\n' :: fmt ev false, eventColor opts colf false ev⟩]
            else [])) ∧
    (ev.s < startDt →
      getWeekEvents opts fmt colf startDt endDt now [ev] =
        List.replicate 7 []) := by
  constructor
  · intro hin j hj
    have hq : qualifies startDt endDt ev = true :=
      (qualifies_iff startDt endDt ev).mpr (Or.inl hin)
    rw [getWeekEvents, getWeekEventsFull]
    simp only [List.foldl_cons, List.foldl_nil]
    rw [nowInWeek_false_of_lt h4]
    rw [processEvent_pos _ _ _ _ _ _ _ _ _ hq]
    rw [markerStep_false]
    simp only [appendTitleLines]
    rw [if_neg (show ¬ (is_all_day ev && decide (ev.s < eventEndDate ev)) = true
      by rw [h1]; simp)]
    rw [appendAt_getQ]
    rw [replicate_getQ _ _ _ hj]
    rw [h1]
    by_cases hcond : j = eventDayNum opts ev
    · rw [if_pos hcond, if_pos hcond]
      rfl
    · rw [if_neg hcond, if_neg hcond]
  · intro hbefore
    have hq : qualifies startDt endDt ev = false := by
      cases hqv : qualifies startDt endDt ev with
      | false => rfl
      | true =>
        exfalso
        rcases (qualifies_iff startDt endDt ev).mp hqv with ⟨ha, _⟩ | ⟨ha, _⟩
        · omega
        · rw [h1] at ha
          exact Bool.noConfusion ha
    rw [getWeekEvents, getWeekEventsFull]
    simp only [List.foldl_cons, List.foldl_nil]
    rw [processEvent_neg _ _ _ _ _ _ _ _ _ hq]

/-- Witness for C5: the spec's example — a Monday-through-Wednesday all-day
event in a Monday-first, weekend-visible 7-day window starting Monday
(minute 5760 of the epoch is a Monday midnight) — lands in bucket 2
(and, by further applications, exactly in buckets 0, 1, 2). -/
theorem claim_C5_witness :
    (getWeekEvents ⟨true, true, 10, ['N'], false⟩ (fun _ _ => ['T'])
        (fun _ _ => ['c']) 5760 15840 0 [⟨5760, 10080, false⟩]).get? 2 =
      some [⟨'\n' :: ['T'], ['c']⟩] ∧
    (getWeekEvents ⟨true, true, 10, ['N'], false⟩ (fun _ _ => ['T'])
        (fun _ _ => ['c']) 5760 15840 0 [⟨5760, 10080, false⟩]).get? 3 =
      some [] := by
  constructor
  · exact claim_C5 ⟨true, true, 10, ['N'], false⟩ (fun _ _ => ['T'])
      (fun _ _ => ['c']) 5760 15840 0 ⟨5760, 10080, false⟩ (by decide)
      (by decide) (by decide) (by decide) 2 (by decide)
  · exact claim_C5 ⟨true, true, 10, ['N'], false⟩ (fun _ _ => ['T'])
      (fun _ _ => ['c']) 5760 15840 0 ⟨5760, 10080, false⟩ (by decide)
      (by decide) (by decide) (by decide) 3 (by decide)

/-- Witness for C9: a timed Monday event whose end falls two days later
still occupies only the Monday bucket; a timed event starting before the
window is dropped entirely. -/
theorem claim_C9_witness :
    (getWeekEvents ⟨true, true, 10, ['N'], false⟩ (fun _ _ => ['T'])
        (fun _ _ => ['c']) 5760 15840 0 [⟨6360, 9000, false⟩]).get? 0 =
      some [⟨'\n' :: ['T'], ['c']⟩] ∧
    getWeekEvents ⟨true, true, 10, ['N'], false⟩ (fun _ _ => ['T'])
        (fun _ _ => ['c']) 5760 15840 0 [⟨5000, 5060, false⟩] =
      List.replicate 7 [] := by
  constructor
  · exact (claim_C9 ⟨true, true, 10, ['N'], false⟩ (fun _ _ => ['T'])
      (fun _ _ => ['c']) 5760 15840 0 ⟨6360, 9000, false⟩ (by decide)
      (by decide)).1 (by decide) 0 (by decide)
  · exact (claim_C9 ⟨true, true, 10, ['N'], false⟩ (fun _ _ => ['T'])
      (fun _ _ => ['c']) 5760 15840 0 ⟨5000, 5060, false⟩ (by decide)
      (by decide)).2 (by decide)

end SingleEventClaims

end Gcalcli
